import Mathlib

/-!
# Verification of the DeepDiveDevotions publish pipeline (`automate.py`)

This file gives a shallow embedding of the orchestration script
`automate.py` — the "publish one scheduled episode" pipeline — and proves
the specification's claims about it.

Conventions:
* Python strings are Lean `String`s; Python `str.strip`/`str.lower` are
  modelled by `pyStrip`/`pyLower` (ASCII whitespace / ASCII case, which is
  all the pipeline's data uses).
* The Python `dict` built by the header comprehension is modelled as an
  association list with overwrite-on-insert semantics (`dictInsert`).
* `datetime.strptime(s, "%Y-%m-%d").date()` is modelled by
  `parse_publish_date`, following CPython's `_strptime` regular expressions
  (`%Y` = exactly four digits, `%m`/`%d` = one or two digits in range) and
  `datetime.date`'s calendar validation.
* `xml.etree.ElementTree` documents are modelled by the `Elem` tree
  (tag, attributes, text, children, tail), with `serializeElem` modelling
  `ET.tostring(-, encoding="unicode")` and `parseDoc` modelling
  `ET.fromstring`.
* External services (Drive, ffmpeg, Cloud Storage, Sheets) are modelled by
  an `Ext` record of outcomes; `run_main` threads them exactly in the order
  `main` performs the calls, recording every externally visible write.
-/

/-! ## Python string primitives -/

/-- ASCII whitespace, the characters `str.strip()` removes from the
pipeline's (ASCII) cell data: space, tab, newline, carriage return,
vertical tab, form feed. -/
def isSpaceChar (c : Char) : Bool :=
  c = ' ' || c = '\t' || c = '\n' || c = '\r' || c = '\x0b' || c = '\x0c'

/-- Strip leading and trailing whitespace from a character list. -/
def stripList (l : List Char) : List Char :=
  (((l.dropWhile isSpaceChar).reverse).dropWhile isSpaceChar).reverse

/-- Model of Python `str.strip()`. -/
def pyStrip (s : String) : String :=
  ⟨stripList s.data⟩

/-- Lowercase one ASCII character (model of `str.lower` per character). -/
def lowerChar (c : Char) : Char :=
  if 'A' ≤ c ∧ c ≤ 'Z' then Char.ofNat (c.toNat + 32) else c

/-- Model of Python `str.lower()`. -/
def pyLower (s : String) : String :=
  ⟨s.data.map lowerChar⟩

/-- The first element surviving `dropWhile p` fails `p`. -/
theorem dropWhile_head_not (p : Char → Bool) (l : List Char) :
    ∀ a t, l.dropWhile p = a :: t → p a = false := by
  induction l with
  | nil => intro a t h; simp [List.dropWhile] at h
  | cons x xs ih =>
    intro a t h
    by_cases hx : p x
    · simp [List.dropWhile, hx] at h
      exact ih a t h
    · simp [List.dropWhile, hx] at h
      rw [← h.1]
      simpa using hx

/-- `dropWhile` is idempotent. -/
theorem dropWhile_idem (p : Char → Bool) (l : List Char) :
    (l.dropWhile p).dropWhile p = l.dropWhile p := by
  cases h : l.dropWhile p with
  | nil => simp
  | cons a t =>
    have := dropWhile_head_not p l a t h
    simp [List.dropWhile, this]

/-- Dropping a prefix from a concatenation. -/
theorem dropWhile_append (p : Char → Bool) (x y : List Char) :
    (x ++ y).dropWhile p =
      if x.dropWhile p = [] then y.dropWhile p else x.dropWhile p ++ y := by
  induction x with
  | nil => simp
  | cons a t ih =>
    by_cases ha : p a
    · simp [List.dropWhile, ha, ih]
    · simp [List.dropWhile, ha]

/-- `stripList` is idempotent. -/
theorem stripList_idem (l : List Char) : stripList (stripList l) = stripList l := by
  unfold stripList
  cases hm : (l.dropWhile isSpaceChar) with
  | nil => simp
  | cons a t =>
    have ha : isSpaceChar a = false := dropWhile_head_not _ l a t hm
    -- the right-stripped reversal ends with `a`, so its reverse starts with `a`
    have hsplit : ((a :: t).reverse).dropWhile isSpaceChar =
        if (t.reverse).dropWhile isSpaceChar = [] then [a]
        else (t.reverse).dropWhile isSpaceChar ++ [a] := by
      have : (a :: t).reverse = t.reverse ++ [a] := by simp
      rw [this, dropWhile_append]
      by_cases h0 : (t.reverse).dropWhile isSpaceChar = []
      · simp [h0, List.dropWhile, ha]
      · simp [h0]
    by_cases h0 : (t.reverse).dropWhile isSpaceChar = []
    · simp only [hsplit, h0, if_pos]
      simp [List.dropWhile, ha]
    · simp only [hsplit, h0, if_neg, not_false_iff]
      have hrev : ((t.reverse).dropWhile isSpaceChar ++ [a]).reverse =
          a :: ((t.reverse).dropWhile isSpaceChar).reverse := by simp
      rw [hrev]
      simp only [List.dropWhile, ha, Bool.false_eq_true, if_false, cond_false]
      have : (a :: ((t.reverse).dropWhile isSpaceChar).reverse).reverse =
          (t.reverse).dropWhile isSpaceChar ++ [a] := by simp
      rw [this, dropWhile_append]
      rw [dropWhile_idem]
      simp [h0]

/-- `pyStrip` is idempotent. -/
theorem pyStrip_idem (s : String) : pyStrip (pyStrip s) = pyStrip s := by
  unfold pyStrip
  simp [stripList_idem]

/-! ## Calendar dates and `parse_publish_date`

`parse_publish_date(s)` is `datetime.strptime(s.strip(), "%Y-%m-%d").date()`.
CPython's `_strptime` matches `%Y` with exactly four digits and `%m`/`%d`
with one or two digits in range (so `"2024-3-1"` parses, `"24-03-01"` does
not), requires the whole string to be consumed, and `datetime` validates
the day against the month length (with leap years) and requires year ≥ 1. -/

structure Date where
  year : Nat
  month : Nat
  day : Nat
deriving DecidableEq, Repr

def isLeapYear (y : Nat) : Bool :=
  (y % 4 == 0 && y % 100 != 0) || y % 400 == 0

def daysInMonth (y m : Nat) : Nat :=
  if m = 2 then (if isLeapYear y then 29 else 28)
  else if m = 4 ∨ m = 6 ∨ m = 9 ∨ m = 11 then 30
  else 31

/-- Numeric value of a string of decimal digits. -/
def digitsVal (l : List Char) : Nat :=
  l.foldl (fun acc c => acc * 10 + (c.toNat - 48)) 0

/-- Split a character list at every occurrence of `sep` (the list analogue
of Python `str.split(sep)` for a one-character separator; structurally
recursive so that the kernel can evaluate it). -/
def splitOnChar (sep : Char) : List Char → List (List Char)
  | [] => [[]]
  | c :: rest =>
    let r := splitOnChar sep rest
    if c = sep then [] :: r
    else
      match r with
      | [] => [[c]]
      | g :: gs => (c :: g) :: gs

/-- Core of `strptime(s, "%Y-%m-%d").date()` on an already-stripped string. -/
def parseDateCore (t : String) : Option Date :=
  match splitOnChar (Char.ofNat 45) t.data with  -- 45 is the dash separator of %Y-%m-%d
  | [ys, ms, ds] =>
    if ys.length = 4 ∧ ys.all Char.isDigit
        ∧ 1 ≤ ms.length ∧ ms.length ≤ 2 ∧ ms.all Char.isDigit
        ∧ 1 ≤ ds.length ∧ ds.length ≤ 2 ∧ ds.all Char.isDigit then
      let y := digitsVal ys
      let m := digitsVal ms
      let d := digitsVal ds
      if 1 ≤ y ∧ 1 ≤ m ∧ m ≤ 12 ∧ 1 ≤ d ∧ d ≤ daysInMonth y m then
        some ⟨y, m, d⟩
      else none
    else none
  | _ => none

/-- Model of `parse_publish_date` (`automate.py`, lines 47–48). -/
def parse_publish_date (s : String) : Option Date :=
  parseDateCore (pyStrip s)

/-- Zero-pad a number to two digits (as `date.isoformat` does). -/
def pad2 (n : Nat) : String :=
  if n < 10 then "0" ++ toString n else toString n

/-- Zero-pad a year to four digits (as `date.isoformat` does). -/
def pad4 (n : Nat) : String :=
  if n < 10 then "000" ++ toString n
  else if n < 100 then "00" ++ toString n
  else if n < 1000 then "0" ++ toString n
  else toString n

/-- Model of `date.isoformat()`: `YYYY-MM-DD`. -/
def dateIso (d : Date) : String :=
  pad4 d.year ++ "-" ++ pad2 d.month ++ "-" ++ pad2 d.day

/-! ## `col_to_a1`: zero-based column index to spreadsheet letters

`col_to_a1` (`automate.py`, lines 51–61) is a `while True` loop; the loop
runs at most `n + 1` times because `divmod(n, 26)` then `n -= 1` strictly
decreases `n`, so we translate it with an explicit iteration budget
(`fuel`) of `n + 1`, which keeps the definition structurally recursive
(and hence evaluable inside the kernel). -/

def col_to_a1_loop : Nat → Nat → String → String
  | 0, _, letters => letters
  | fuel + 1, n, letters =>
    let rem := n % 26
    let letters := String.singleton (Char.ofNat (65 + rem)) ++ letters
    if n / 26 = 0 then letters
    else col_to_a1_loop fuel (n / 26 - 1) letters

/-- Model of `col_to_a1` (`automate.py`, lines 51–61): `0 -> A`, `25 -> Z`,
`26 -> AA`, … -/
def col_to_a1 (col_index_0_based : Nat) : String :=
  col_to_a1_loop (col_index_0_based + 1) col_index_0_based ""

/-- Spec-side interpretation: the zero-based column index denoted by a
string of letters read as a *bijective base-26* numeral over `A`–`Z`
(`A` = 1, …, `Z` = 26, value of `s` = Σ digitᵢ·26^(k-i), column index =
value − 1).  Modelled from the spec: "translating a zero-based column
index to spreadsheet-style base-26 letters, A, B, …, Z, AA, AB, …". -/
def a1ColumnIndex (s : String) : Nat :=
  s.data.foldl (fun acc c => acc * 26 + (c.toNat - 64)) 0 - 1


/-- Arithmetic step of the bijective base-26 interpretation. -/
theorem a1_char_toNat (rem : Nat) (h : rem < 26) :
    (Char.ofNat (65 + rem)).toNat = 65 + rem := by
  interval_cases rem <;> decide

theorem a1_char_range (rem : Nat) (h : rem < 26) :
    'A' ≤ Char.ofNat (65 + rem) ∧ Char.ofNat (65 + rem) ≤ 'Z' := by
  interval_cases rem <;> exact ⟨by decide, by decide⟩

/-- Loop invariant for `col_to_a1_loop`: interpreting the produced letters
as a bijective base-26 numeral continues the fold with accumulator `n+1`. -/
theorem col_to_a1_loop_val : ∀ (fuel n : Nat) (acc : String), n < fuel →
    (col_to_a1_loop fuel n acc).data.foldl
        (fun acc c => acc * 26 + (c.toNat - 64)) 0 =
      acc.data.foldl (fun acc c => acc * 26 + (c.toNat - 64)) (n + 1) := by
  intro fuel
  induction fuel with
  | zero => intro n acc h; omega
  | succ fuel ih =>
    intro n acc h
    have hrem : n % 26 < 26 := Nat.mod_lt _ (by norm_num)
    have hchar := a1_char_toNat (n % 26) hrem
    by_cases h0 : n / 26 = 0
    · have hn : n = n % 26 := by
        have := Nat.div_add_mod n 26
        omega
      simp only [col_to_a1_loop, h0, if_pos]
      have hdata : (String.singleton (Char.ofNat (65 + n % 26)) ++ acc).data
          = Char.ofNat (65 + n % 26) :: acc.data := by
        simp [String.singleton]
      rw [hdata]
      simp only [List.foldl_cons, hchar]
      congr 1
      omega
    · have hlt : n / 26 - 1 < fuel := by
        have := Nat.div_le_self n 26
        have h1 : n / 26 ≥ 1 := Nat.one_le_iff_ne_zero.mpr h0
        omega
      simp only [col_to_a1_loop, h0, if_neg, not_false_iff]
      rw [ih _ _ hlt]
      have hdata : (String.singleton (Char.ofNat (65 + n % 26)) ++ acc).data
          = Char.ofNat (65 + n % 26) :: acc.data := by
        simp [String.singleton]
      rw [hdata]
      simp only [List.foldl_cons, hchar]
      congr 1
      have := Nat.div_add_mod n 26
      omega

/-- Every character `col_to_a1_loop` prepends is an uppercase letter. -/
theorem col_to_a1_loop_chars : ∀ (fuel n : Nat) (acc : String),
    (∀ c ∈ acc.data, 'A' ≤ c ∧ c ≤ 'Z') →
    ∀ c ∈ (col_to_a1_loop fuel n acc).data, 'A' ≤ c ∧ c ≤ 'Z' := by
  intro fuel
  induction fuel with
  | zero => intro n acc hacc; exact hacc
  | succ fuel ih =>
    intro n acc hacc
    have hrem : n % 26 < 26 := Nat.mod_lt _ (by norm_num)
    have hchar := a1_char_range (n % 26) hrem
    have hacc' : ∀ c ∈ (String.singleton (Char.ofNat (65 + n % 26)) ++ acc).data,
        'A' ≤ c ∧ c ≤ 'Z' := by
      intro c hc
      have hdata : (String.singleton (Char.ofNat (65 + n % 26)) ++ acc).data
          = Char.ofNat (65 + n % 26) :: acc.data := by
        simp [String.singleton]
      rw [hdata] at hc
      rcases List.mem_cons.mp hc with rfl | hc
      · exact hchar
      · exact hacc c hc
    by_cases h0 : n / 26 = 0
    · simp only [col_to_a1_loop, h0, if_pos]
      exact hacc'
    · simp only [col_to_a1_loop, h0, if_neg, not_false_iff]
      exact ih _ _ hacc'

/-- C9: for every zero-based column index `n`, `col_to_a1 n` is the
spreadsheet-style bijective base-26 numeral of `n` over `A`–`Z`: reading
the result back as a bijective base-26 numeral (`a1ColumnIndex`) recovers
`n`, the result is a nonempty string of letters `A`–`Z`, and the listed
sample values hold (`0 ↦ "A"`, `25 ↦ "Z"`, `26 ↦ "AA"`, `27 ↦ "AB"`,
`701 ↦ "ZZ"`, `702 ↦ "AAA"`).  The function is total (the loop budget
`n + 1` always suffices; a truncated result would contradict the read-back
equation). -/
theorem col_to_a1_correct :
    (∀ n : Nat, a1ColumnIndex (col_to_a1 n) = n ∧ col_to_a1 n ≠ "" ∧
        ∀ c ∈ (col_to_a1 n).data, 'A' ≤ c ∧ c ≤ 'Z') ∧
    col_to_a1 0 = "A" ∧ col_to_a1 25 = "Z" ∧ col_to_a1 26 = "AA" ∧
    col_to_a1 27 = "AB" ∧ col_to_a1 701 = "ZZ" ∧ col_to_a1 702 = "AAA" := by
  refine ⟨fun n => ⟨?_, ?_, ?_⟩, rfl, rfl, rfl, rfl, rfl, rfl⟩
  · unfold a1ColumnIndex col_to_a1
    rw [col_to_a1_loop_val (n + 1) n "" (Nat.lt_succ_self n)]
    simp
  · intro hempty
    have hval := col_to_a1_loop_val (n + 1) n "" (Nat.lt_succ_self n)
    unfold col_to_a1 at hempty
    rw [hempty] at hval
    simp at hval
  · exact col_to_a1_loop_chars (n + 1) n ""
      (by intro c hc; simp [String.data] at hc)

/-! ## The header dictionary

`col_index = {h.strip(): i for i, h in enumerate(headers)}`
(`automate.py`, line 153).  A Python dict comprehension inserts pairs in
iteration order, a later duplicate key *overwriting* the earlier binding.
We model the dict as an association list with overwrite-on-insert. -/

/-- Insert with Python-dict semantics: overwrite the binding if the key is
present (keeping its position), otherwise append the pair. -/
def dictInsert (d : List (String × Nat)) (k : String) (v : Nat) : List (String × Nat) :=
  if d.any (fun p => p.1 = k) then
    d.map (fun p => if p.1 = k then (p.1, v) else p)
  else d ++ [(k, v)]

/-- `d[k]` / `k in d` as an optional lookup (first binding wins; bindings
keep distinct keys by construction, so this matches the Python dict). -/
def dictLookup : List (String × Nat) → String → Option Nat
  | [], _ => none
  | p :: rest, k => if p.1 = k then some p.2 else dictLookup rest k

/-- `list(d.keys())`. -/
def dictKeys (d : List (String × Nat)) : List String :=
  d.map (fun p => p.1)

/-- The dict comprehension, iterating `enumerate(headers)` from index `i`. -/
def buildColIndexFrom (d : List (String × Nat)) (i : Nat) :
    List String → List (String × Nat)
  | [] => d
  | h :: rest => buildColIndexFrom (dictInsert d (pyStrip h) i) (i + 1) rest

/-- Model of `col_index = {h.strip(): i for i, h in enumerate(headers)}`. -/
def build_col_index (headers : List String) : List (String × Nat) :=
  buildColIndexFrom [] 0 headers


theorem dictLookup_append (d₁ d₂ : List (String × Nat)) (k : String) :
    dictLookup (d₁ ++ d₂) k = (dictLookup d₁ k).or (dictLookup d₂ k) := by
  induction d₁ with
  | nil => simp [dictLookup]
  | cons p rest ih =>
    by_cases hp : p.1 = k
    · simp [dictLookup, hp]
    · simp [dictLookup, hp, ih]

theorem dictLookup_mapReplace (d : List (String × Nat)) (k : String) (v : Nat)
    (k' : String) :
    dictLookup (d.map (fun p => if p.1 = k then (p.1, v) else p)) k' =
      if k' = k then (dictLookup d k).map (fun _ => v) else dictLookup d k' := by
  induction d with
  | nil => simp [dictLookup]
  | cons p rest ih =>
    by_cases hp : p.1 = k
    · by_cases hk : k' = k
      · have h1 : p.1 = k' := hp.trans hk.symm
        simp [dictLookup, hp, hk, h1, ih]
      · have h1 : ¬ p.1 = k' := fun h => hk (h.symm.trans hp)
        have hk2 : ¬ k = k' := fun h => hk h.symm
        simp [dictLookup, hp, hk, h1, hk2, ih]
    · by_cases hk : k' = k
      · have h1 : ¬ p.1 = k' := fun h => hp (h.trans hk)
        rw [hk] at ih
        simp only [if_pos rfl] at ih
        simp [dictLookup, hp, hk, h1, ih]
      · by_cases hpk : p.1 = k'
        · simp [dictLookup, hp, hk, hpk]
        · simp [dictLookup, hp, hk, hpk, ih]

/-- A key is in the dict iff lookup succeeds. -/
theorem dictLookup_isSome_iff_any (d : List (String × Nat)) (k : String) :
    (dictLookup d k).isSome = d.any (fun p => p.1 = k) := by
  induction d with
  | nil => simp [dictLookup]
  | cons p rest ih =>
    by_cases hp : p.1 = k
    · simp [dictLookup, hp]
    · simp [dictLookup, hp, ih]

/-- The fundamental overwrite law of `dictInsert`. -/
theorem dictLookup_dictInsert (d : List (String × Nat)) (k : String) (v : Nat)
    (k' : String) :
    dictLookup (dictInsert d k v) k' =
      if k' = k then some v else dictLookup d k' := by
  unfold dictInsert
  by_cases hany : d.any (fun p => p.1 = k)
  · rw [if_pos hany, dictLookup_mapReplace]
    by_cases hk : k' = k
    · rw [if_pos hk, if_pos hk]
      have hsome : (dictLookup d k).isSome := by
        rw [dictLookup_isSome_iff_any]; exact hany
      rcases Option.isSome_iff_exists.mp hsome with ⟨x, hx⟩
      rw [hx]
      rfl
    · rw [if_neg hk, if_neg hk]
  · rw [if_neg hany, dictLookup_append]
    have h2 : (d.any fun p => p.1 = k) = false := by
      revert hany
      cases (d.any fun p => p.1 = k) <;> simp
    have hnone : dictLookup d k = none := by
      have h := dictLookup_isSome_iff_any d k
      rw [h2] at h
      cases hd : dictLookup d k with
      | none => rfl
      | some x => rw [hd] at h; simp at h
    by_cases hk : k' = k
    · rw [hk, hnone, if_pos rfl]
      simp [dictLookup]
    · have hk2 : ¬ k = k' := fun h => hk h.symm
      have hsingle : dictLookup [(k, v)] k' = none := by
        simp [dictLookup, hk2]
      rw [hsingle, Option.or_none, if_neg hk]

/-- The index the dict comprehension ends up binding `k` to, computed
recursively: the *last* (highest-index) occurrence of a header whose
trimmed text is `k` wins, because later insertions overwrite earlier
ones. -/
def lastOccFrom (i : Nat) (k : String) : List String → Option Nat
  | [] => none
  | h :: rest =>
    match lastOccFrom (i + 1) k rest with
    | some v => some v
    | none => if pyStrip h = k then some i else none

theorem dictLookup_buildColIndexFrom :
    ∀ (hs : List String) (d : List (String × Nat)) (i : Nat) (k : String),
    dictLookup (buildColIndexFrom d i hs) k =
      match lastOccFrom i k hs with
      | some v => some v
      | none => dictLookup d k := by
  intro hs
  induction hs with
  | nil => intro d i k; simp [buildColIndexFrom, lastOccFrom]
  | cons h rest ih =>
    intro d i k
    show dictLookup (buildColIndexFrom (dictInsert d (pyStrip h) i) (i + 1) rest) k = _
    rw [ih]
    cases hrec : lastOccFrom (i + 1) k rest with
    | some v => simp [lastOccFrom, hrec]
    | none =>
      rw [dictLookup_dictInsert]
      by_cases hh : pyStrip h = k
      · have hh2 : k = pyStrip h := hh.symm
        simp [lastOccFrom, hrec, hh, if_pos hh2]
      · have hh2 : ¬ k = pyStrip h := fun h2 => hh h2.symm
        simp [lastOccFrom, hrec, hh, hh2]

theorem lastOccFrom_eq_none (k : String) :
    ∀ (hs : List String) (i : Nat),
    lastOccFrom i k hs = none ↔ ∀ h ∈ hs, pyStrip h ≠ k := by
  intro hs
  induction hs with
  | nil => intro i; simp [lastOccFrom]
  | cons h rest ih =>
    intro i
    constructor
    · intro hnone
      cases hrec : lastOccFrom (i + 1) k rest with
      | some v => simp [lastOccFrom, hrec] at hnone
      | none =>
        simp only [lastOccFrom, hrec] at hnone
        intro x hx
        rcases List.mem_cons.mp hx with rfl | hx
        · intro hk
          rw [if_pos hk] at hnone
          exact Option.noConfusion hnone
        · exact (ih (i + 1)).mp hrec x hx
    · intro hall
      have hrest : lastOccFrom (i + 1) k rest = none :=
        (ih (i + 1)).mpr (fun x hx => hall x (List.mem_cons_of_mem h hx))
      have hh : ¬ pyStrip h = k := hall h (List.mem_cons_self h rest)
      simp [lastOccFrom, hrest, hh]

theorem lastOccFrom_eq_some (k : String) :
    ∀ (hs : List String) (i v : Nat),
    lastOccFrom i k hs = some v ↔
      ∃ n h, hs[n]? = some h ∧ pyStrip h = k ∧ v = i + n ∧
        (∀ m h', n < m → hs[m]? = some h' → pyStrip h' ≠ k) := by
  intro hs
  induction hs with
  | nil => intro i v; simp [lastOccFrom]
  | cons h rest ih =>
    intro i v
    constructor
    · intro hsome
      cases hrec : lastOccFrom (i + 1) k rest with
      | some w =>
        simp only [lastOccFrom, hrec] at hsome
        have hw : w = v := Option.some.inj hsome
        subst hw
        rcases (ih (i + 1) w).mp hrec with ⟨n, x, hx, hk, hv, hlater⟩
        refine ⟨n + 1, x, ?_, hk, by omega, ?_⟩
        · simpa using hx
        · intro m h' hm hm'
          cases m with
          | zero => omega
          | succ m' =>
            have : rest[m']? = some h' := by simpa using hm'
            exact hlater m' h' (by omega) this
      | none =>
        simp only [lastOccFrom, hrec] at hsome
        by_cases hh : pyStrip h = k
        · rw [if_pos hh] at hsome
          have hv : i = v := Option.some.inj hsome
          refine ⟨0, h, by simp, hh, by omega, ?_⟩
          intro m h' hm hm'
          cases m with
          | zero => omega
          | succ m' =>
            have hmem : h' ∈ rest := by
              have : rest[m']? = some h' := by simpa using hm'
              exact List.getElem?_mem this
            exact (lastOccFrom_eq_none k rest (i + 1)).mp hrec h' hmem
        · rw [if_neg hh] at hsome
          exact Option.noConfusion hsome
    · rintro ⟨n, x, hx, hk, hv, hlater⟩
      cases n with
      | zero =>
        have hxh : x = h := by
          rw [List.getElem?_cons_zero] at hx
          exact (Option.some.inj hx).symm
        subst hxh
        have hrest : lastOccFrom (i + 1) k rest = none := by
          rw [lastOccFrom_eq_none]
          intro h' hh'
          rcases List.mem_iff_getElem?.mp hh' with ⟨m', hm'⟩
          exact hlater (m' + 1) h' (Nat.succ_pos m')
            (by rw [List.getElem?_cons_succ]; exact hm')
        have hv0 : v = i := by omega
        subst hv0
        simp [lastOccFrom, hrest, hk]
      | succ n' =>
        have hx' : rest[n']? = some x := by
          rw [List.getElem?_cons_succ] at hx
          exact hx
        have hlater' : ∀ m h', n' < m → rest[m]? = some h' → pyStrip h' ≠ k := by
          intro m h' hm hm'
          exact hlater (m + 1) h' (by omega)
            (by rw [List.getElem?_cons_succ]; exact hm')
        have hrec : lastOccFrom (i + 1) k rest = some (i + 1 + n') :=
          (ih (i + 1) (i + 1 + n')).mpr ⟨n', x, hx', hk, rfl, hlater'⟩
        have hv' : v = i + 1 + n' := by omega
        subst hv'
        simp [lastOccFrom, hrec]

/-- C10: the header-to-index dict binds each trimmed header name to the
*maximum* column index at which it occurs (later occurrences of a
duplicate name overwrite earlier ones in the dict comprehension), so every
role resolving to that name resolves to the last such column, not the
first. -/
theorem build_col_index_last_occurrence (headers : List String) (k : String) (i : Nat) :
    dictLookup (build_col_index headers) k = some i ↔
      (∃ h, headers[i]? = some h ∧ pyStrip h = k) ∧
        (∀ j h', i < j → headers[j]? = some h' → pyStrip h' ≠ k) := by
  unfold build_col_index
  rw [dictLookup_buildColIndexFrom]
  constructor
  · intro hmain
    cases hrec : lastOccFrom 0 k headers with
    | none => rw [hrec] at hmain; exact absurd hmain (by simp [dictLookup])
    | some v =>
      rw [hrec] at hmain
      have hv : v = i := Option.some.inj hmain
      subst hv
      rcases (lastOccFrom_eq_some k headers 0 v).mp hrec with ⟨n, x, hx, hk, hv0, hlater⟩
      have hn : n = v := by omega
      subst hn
      exact ⟨⟨x, hx, hk⟩, fun j h' hj hj' => hlater j h' hj hj'⟩
  · rintro ⟨⟨h, hh, hk⟩, hlater⟩
    have hsome : lastOccFrom 0 k headers = some (0 + i) :=
      (lastOccFrom_eq_some k headers 0 (0 + i)).mpr ⟨i, h, hh, hk, rfl, hlater⟩
    rw [hsome]
    simp

/-- A name is in the header dict iff it occurs among the trimmed headers. -/
theorem dictLookup_build_isSome (headers : List String) (k : String) :
    (dictLookup (build_col_index headers) k).isSome = true ↔
      k ∈ headers.map pyStrip := by
  constructor
  · intro h
    rcases Option.isSome_iff_exists.mp h with ⟨i, hi⟩
    rcases (build_col_index_last_occurrence headers k i).mp hi with ⟨⟨x, hx, hk⟩, _⟩
    exact List.mem_map.mpr ⟨x, List.getElem?_mem hx, hk⟩
  · intro h
    unfold build_col_index
    rw [dictLookup_buildColIndexFrom]
    cases hrec : lastOccFrom 0 k headers with
    | some v => simp
    | none =>
      rcases List.mem_map.mp h with ⟨x, hx, hk⟩
      exact absurd ((lastOccFrom_eq_none k headers 0).mp hrec x hx) (by simp [hk])

/-! ## `pick_existing_header` and column resolution -/

/-- Model of `pick_existing_header` (`automate.py`, lines 101–106): return
the first candidate present in the header map; otherwise raise a
`KeyError` whose message names the attempted candidates and the header
names found (we model the error payload as that pair of lists). -/
def pick_existing_header (col_index : List (String × Nat))
    (candidates : List String) : Except (List String × List String) String :=
  match candidates.find? (fun c => (dictLookup col_index c).isSome) with
  | some c => .ok c
  | none => .error (candidates, dictKeys col_index)

/-- `main`'s subsequent use of the resolved name: `col_index[COL_X]`. -/
def resolve_col (col_index : List (String × Nat))
    (candidates : List String) : Option Nat :=
  match pick_existing_header col_index candidates with
  | .ok c => dictLookup col_index c
  | .error _ => none

/-- C5: the Schema Resolver resolves a role to the first candidate name
(in candidate order) present in the header row, matched case-sensitively
against whitespace-trimmed header cells, and the resolved column index
points at a column whose trimmed header is that candidate; when no
candidate is present it fails with an error naming the attempted
candidates (and the header names found). -/
theorem pick_existing_header_correct (headers cands : List String) :
    (∀ c, pick_existing_header (build_col_index headers) cands = .ok c →
        (∃ n : Nat, cands[n]? = some c ∧
          ∀ (m : Nat) (c' : String), m < n → cands[m]? = some c' →
            c' ∉ headers.map pyStrip) ∧
        c ∈ headers.map pyStrip ∧
        (∃ (i : Nat) (h : String),
          resolve_col (build_col_index headers) cands = some i ∧
          headers[i]? = some h ∧ pyStrip h = c)) ∧
    (pick_existing_header (build_col_index headers) cands =
        .error (cands, dictKeys (build_col_index headers)) ↔
      ∀ c ∈ cands, c ∉ headers.map pyStrip) := by
  constructor
  · intro c hc
    unfold pick_existing_header at hc
    cases hfind : cands.find? (fun c => (dictLookup (build_col_index headers) c).isSome) with
    | none => rw [hfind] at hc; exact Except.noConfusion hc
    | some c' =>
      rw [hfind] at hc
      have hcc : c' = c := Except.ok.inj hc
      subst hcc
      rcases List.find?_eq_some.mp hfind with ⟨hp, as, bs, hsplit, hfail⟩
      refine ⟨⟨as.length, ?_, ?_⟩, ?_, ?_⟩
      · rw [hsplit, List.getElem?_append_right (Nat.le_refl _)]
        simp
      · intro m x hm hmx
        rw [hsplit, List.getElem?_append, if_pos hm] at hmx
        have hxas : x ∈ as := List.getElem?_mem hmx
        have := hfail x hxas
        rw [← dictLookup_build_isSome]
        simpa using this
      · exact (dictLookup_build_isSome headers c').mp hp
      · have hres : resolve_col (build_col_index headers) cands =
            dictLookup (build_col_index headers) c' := by
          unfold resolve_col pick_existing_header
          rw [hfind]
        rcases Option.isSome_iff_exists.mp hp with ⟨i, hi⟩
        rcases (build_col_index_last_occurrence headers c' i).mp hi with ⟨⟨x, hx, hk⟩, _⟩
        exact ⟨i, x, by rw [hres, hi], hx, hk⟩
  · unfold pick_existing_header
    cases hfind : cands.find? (fun c => (dictLookup (build_col_index headers) c).isSome) with
    | none =>
      simp only []
      constructor
      · intro _ c hcmem
        have := List.find?_eq_none.mp hfind c hcmem
        rw [← dictLookup_build_isSome]
        simpa using this
      · intro _; trivial
    | some c' =>
      simp only []
      constructor
      · intro h; exact Except.noConfusion h
      · intro hall
        have hmem := List.mem_of_find?_eq_some hfind
        have hp := List.find?_some hfind
        have := (dictLookup_build_isSome headers c').mp hp
        exact absurd this (hall c' hmem)

/-! ## Row Selector (`automate.py`, lines 172–198) -/

/-- `row = values[r] + [""] * (len(headers) - len(values[r]))` (line 177).
When the row is longer than the header, Python's negative multiplier gives
`[]`, exactly like truncated `Nat` subtraction here. -/
def padRow (row : List String) (n : Nat) : List String :=
  row ++ List.replicate (n - row.length) ""

/-- The truthy markers of the processed cell (line 189). -/
def processedTruthy : List String :=
  ["yes", "y", "true", "1", "processed", "done"]

/-- The body of the selection loop (lines 177–191): does this row qualify
for `today`?  Mirrors the source: read the publish cell (empty-cell guard,
then `strip`), skip when empty or unparseable, then compare the parsed
date with `today` and test the processed cell against the truthy set. -/
def row_matches (headers : List String) (pubIdx procIdx : Nat) (today : Date)
    (rawRow : List String) : Bool :=
  let row := padRow rawRow headers.length
  let cell := row.getD pubIdx ""
  let publish_raw := if cell = "" then "" else pyStrip cell
  if publish_raw = "" then false
  else
    match parse_publish_date publish_raw with
    | none => false
    | some pub =>
      let processed_val := pyLower (pyStrip (row.getD procIdx ""))
      let is_processed := decide (processed_val ∈ processedTruthy)
      decide (pub = today) && !is_processed

/-- The `for r in range(1, len(values))` loop with `break` (lines 176–194):
try rows in order, return the first qualifying 1-based row index. -/
def scanRowsFrom (headers : List String) (pubIdx procIdx : Nat) (today : Date) :
    Nat → List (List String) → Option Nat
  | _, [] => none
  | r, row :: rest =>
    if row_matches headers pubIdx procIdx today row then some r
    else scanRowsFrom headers pubIdx procIdx today (r + 1) rest

/-- The selection of `target_row` (lines 172–194): scan the data rows
`values[1:]` with 1-based indices. -/
def find_target_row (values : List (List String)) (headers : List String)
    (pubIdx procIdx : Nat) (today : Date) : Option Nat :=
  scanRowsFrom headers pubIdx procIdx today 1 (values.drop 1)

/-- Spec-side qualification predicate, stated the way the claim states it:
the publish-date cell parses as a `YYYY-MM-DD` date equal to the target
date, and the processed cell, trimmed and lowercased, is not in the truthy
set. -/
def row_qualifies (headers : List String) (pubIdx procIdx : Nat) (today : Date)
    (rawRow : List String) : Prop :=
  parse_publish_date ((padRow rawRow headers.length).getD pubIdx "") = some today ∧
    pyLower (pyStrip ((padRow rawRow headers.length).getD procIdx "")) ∉ processedTruthy

/-- The loop body is exactly the claim's qualification predicate (empty or
malformed publish cells never qualify, and the double `strip` in the
source collapses by idempotence). -/
theorem row_matches_iff_qualifies (headers : List String) (pubIdx procIdx : Nat)
    (today : Date) (rawRow : List String) :
    row_matches headers pubIdx procIdx today rawRow = true ↔
      row_qualifies headers pubIdx procIdx today rawRow := by
  unfold row_matches row_qualifies
  simp only []
  generalize (padRow rawRow headers.length).getD pubIdx "" = cell
  generalize (padRow rawRow headers.length).getD procIdx "" = pcell
  have h0 : parse_publish_date "" = none := rfl
  by_cases hc : cell = ""
  · rw [if_pos hc, if_pos rfl, hc, h0]
    simp
  · rw [if_neg hc]
    have hparse : parse_publish_date (pyStrip cell) = parse_publish_date cell := by
      unfold parse_publish_date
      rw [pyStrip_idem]
    by_cases hs : pyStrip cell = ""
    · rw [if_pos hs]
      rw [hs, h0] at hparse
      rw [← hparse]
      simp
    · rw [if_neg hs, hparse]
      cases hp : parse_publish_date cell with
      | none => simp
      | some pub =>
        by_cases hpt : pub = today
        · subst hpt
          simp
        · have hne : ¬ (some pub = some today) := fun h => hpt (Option.some.inj h)
          simp [hpt, hne]

theorem scanRowsFrom_eq_some (headers : List String) (pubIdx procIdx : Nat)
    (today : Date) :
    ∀ (rows : List (List String)) (r k : Nat),
    scanRowsFrom headers pubIdx procIdx today r rows = some k ↔
      ∃ (j : Nat) (row : List String), rows[j]? = some row ∧ k = r + j ∧
        row_matches headers pubIdx procIdx today row = true ∧
        ∀ (j' : Nat) (row' : List String), j' < j → rows[j']? = some row' →
          row_matches headers pubIdx procIdx today row' = false := by
  intro rows
  induction rows with
  | nil => intro r k; simp [scanRowsFrom]
  | cons row rest ih =>
    intro r k
    by_cases hm : row_matches headers pubIdx procIdx today row = true
    · simp only [scanRowsFrom, hm, if_pos]
      constructor
      · intro hk
        have : r = k := Option.some.inj hk
        exact ⟨0, row, by simp, by omega, hm, fun j' row' hj' _ => absurd hj' (by omega)⟩
      · rintro ⟨j, row', hrow', hk, hmatch, hfirst⟩
        cases j with
        | zero => subst hk; simp
        | succ j' =>
          have := hfirst 0 row (by omega) (by simp)
          rw [hm] at this
          exact Bool.noConfusion this
    · have hm' : row_matches headers pubIdx procIdx today row = false :=
        Bool.not_eq_true _ |>.mp hm
      simp only [scanRowsFrom, hm', Bool.false_eq_true, if_false]
      rw [ih (r + 1) k]
      constructor
      · rintro ⟨j, row', hrow', hk, hmatch, hfirst⟩
        refine ⟨j + 1, row', by simpa using hrow', by omega, hmatch, ?_⟩
        intro j' row'' hj' hrow''
        cases j' with
        | zero =>
          have : row'' = row := by
            rw [List.getElem?_cons_zero] at hrow''
            exact (Option.some.inj hrow'').symm
          rw [this]
          exact hm'
        | succ j'' =>
          rw [List.getElem?_cons_succ] at hrow''
          exact hfirst j'' row'' (by omega) hrow''
      · rintro ⟨j, row', hrow', hk, hmatch, hfirst⟩
        cases j with
        | zero =>
          rw [List.getElem?_cons_zero] at hrow'
          have : row' = row := (Option.some.inj hrow').symm
          rw [this] at hmatch
          rw [hmatch] at hm'
          exact Bool.noConfusion hm'
        | succ j' =>
          rw [List.getElem?_cons_succ] at hrow'
          refine ⟨j', row', hrow', by omega, hmatch, ?_⟩
          intro j'' row'' hj'' hrow''
          exact hfirst (j'' + 1) row'' (by omega) (by simpa using hrow'')

theorem scanRowsFrom_eq_none (headers : List String) (pubIdx procIdx : Nat)
    (today : Date) :
    ∀ (rows : List (List String)) (r : Nat),
    scanRowsFrom headers pubIdx procIdx today r rows = none ↔
      ∀ row ∈ rows, row_matches headers pubIdx procIdx today row = false := by
  intro rows
  induction rows with
  | nil => intro r; simp [scanRowsFrom]
  | cons row rest ih =>
    intro r
    by_cases hm : row_matches headers pubIdx procIdx today row = true
    · simp only [scanRowsFrom, hm, if_pos]
      constructor
      · intro h; exact Option.noConfusion h
      · intro hall
        have := hall row (List.mem_cons_self row rest)
        rw [hm] at this
        exact Bool.noConfusion this
    · have hm' : row_matches headers pubIdx procIdx today row = false :=
        Bool.not_eq_true _ |>.mp hm
      simp only [scanRowsFrom, hm', Bool.false_eq_true, if_false]
      rw [ih (r + 1)]
      constructor
      · intro hall row' hrow'
        rcases List.mem_cons.mp hrow' with rfl | hrow'
        · exact hm'
        · exact hall row' hrow'
      · intro hall row' hrow'
        exact hall row' (List.mem_cons_of_mem row hrow')

/-- C2: the Row Selector scans data rows in order from index 1 and
returns the first (lowest-index) row whose publish-date cell parses as a
`YYYY-MM-DD` date equal to the target date and whose processed cell,
trimmed and lowercased, is not in the truthy set
`{"yes","y","true","1","processed","done"}`; rows whose publish-date cell
is empty or fails to parse are skipped without aborting the scan (they
simply do not qualify, and later rows can still be returned); scanning
stops at the first qualifying row, and at most one row is ever selected
per run (the result is a single optional index, unique by the
characterization below). -/
theorem find_target_row_correct (values : List (List String))
    (headers : List String) (pubIdx procIdx : Nat) (today : Date) :
    (∀ r : Nat, find_target_row values headers pubIdx procIdx today = some r ↔
      (1 ≤ r ∧ ∃ row : List String, values[r]? = some row ∧
        row_qualifies headers pubIdx procIdx today row ∧
        ∀ (r' : Nat) (row' : List String), 1 ≤ r' → r' < r →
          values[r']? = some row' →
          ¬ row_qualifies headers pubIdx procIdx today row')) ∧
    (find_target_row values headers pubIdx procIdx today = none ↔
      ∀ (r : Nat) (row : List String), 1 ≤ r → values[r]? = some row →
        ¬ row_qualifies headers pubIdx procIdx today row) := by
  constructor
  · intro r
    unfold find_target_row
    rw [scanRowsFrom_eq_some]
    constructor
    · rintro ⟨j, row, hrow, hk, hmatch, hfirst⟩
      rw [List.getElem?_drop] at hrow
      refine ⟨by omega, row, ?_,
        (row_matches_iff_qualifies _ _ _ _ _).mp hmatch, ?_⟩
      · rw [hk]
        exact hrow
      · intro r' row' h1 hlt hrow'
        have hj' : (values.drop 1)[r' - 1]? = some row' := by
          rw [List.getElem?_drop]
          have harith : 1 + (r' - 1) = r' := by omega
          rw [harith]
          exact hrow'
        have hfalse := hfirst (r' - 1) row' (by omega) hj'
        intro hqual
        have := (row_matches_iff_qualifies _ _ _ _ _).mpr hqual
        rw [hfalse] at this
        exact Bool.noConfusion this
    · rintro ⟨h1, row, hrow, hqual, hfirst⟩
      refine ⟨r - 1, row, ?_, by omega,
        (row_matches_iff_qualifies _ _ _ _ _).mpr hqual, ?_⟩
      · rw [List.getElem?_drop]
        have harith : 1 + (r - 1) = r := by omega
        rw [harith]
        exact hrow
      · intro j' row' hj' hrow'
        rw [List.getElem?_drop] at hrow'
        have hnq := hfirst (1 + j') row' (by omega) (by omega) hrow'
        have : ¬ row_matches headers pubIdx procIdx today row' = true :=
          fun h => hnq ((row_matches_iff_qualifies _ _ _ _ _).mp h)
        exact (Bool.not_eq_true _).mp this
  · unfold find_target_row
    rw [scanRowsFrom_eq_none]
    constructor
    · intro hall r row h1 hrow
      have hj : (values.drop 1)[r - 1]? = some row := by
        rw [List.getElem?_drop]
        have harith : 1 + (r - 1) = r := by omega
        rw [harith]
        exact hrow
      have hmem : row ∈ values.drop 1 := List.getElem?_mem hj
      have hfalse := hall row hmem
      intro hqual
      have := (row_matches_iff_qualifies _ _ _ _ _).mpr hqual
      rw [hfalse] at this
      exact Bool.noConfusion this
    · intro hall row hmem
      rcases List.mem_iff_getElem?.mp hmem with ⟨j, hj⟩
      rw [List.getElem?_drop] at hj
      have hnq := hall (1 + j) row (by omega) hj
      have : ¬ row_matches headers pubIdx procIdx today row = true :=
        fun h => hnq ((row_matches_iff_qualifies _ _ _ _ _).mp h)
      exact (Bool.not_eq_true _).mp this

/-! ## XML documents (`xml.etree.ElementTree` model)

`ET` models an XML document as a tree of elements, each with a tag,
an ordered attribute list, optional text (before the first child),
children, and optional tail text (after the element's closing tag, inside
its parent).  `ET.tostring(root, encoding="unicode")` emits no XML
declaration, writes attributes in insertion order, escapes `& < >` in
character data and additionally `"` and tab/newline/carriage-return in
attribute values, and writes `<tag ... />` for an element with no text
and no children.  `ET.fromstring` parses a document (we model the common
subset the feed uses: an optional XML declaration, elements, attributes
quoted with double or single quotes, character data with the named
entities `amp/lt/gt/quot/apos` and decimal character references). -/

mutual
inductive Elem where
  | mk (tag : String) (attrs : List (String × String)) (text : Option String)
      (children : ElemList) (tailText : Option String)
inductive ElemList where
  | nil
  | cons (head : Elem) (tail : ElemList)
end

def Elem.tag : Elem → String
  | .mk t _ _ _ _ => t

def Elem.attrs : Elem → List (String × String)
  | .mk _ a _ _ _ => a

def Elem.text : Elem → Option String
  | .mk _ _ x _ _ => x

def Elem.children : Elem → ElemList
  | .mk _ _ _ c _ => c

def Elem.tailText : Elem → Option String
  | .mk _ _ _ _ l => l

def Elem.withChildren : Elem → ElemList → Elem
  | .mk t a x _ l, c => .mk t a x c l

def ElemList.isNil : ElemList → Bool
  | .nil => true
  | .cons _ _ => false

def ElemList.length : ElemList → Nat
  | .nil => 0
  | .cons _ cs => 1 + cs.length

/-- `channel.findall("item")`-nonemptiness: is any direct child tagged `t`? -/
def ElemList.anyTag : ElemList → String → Bool
  | .nil, _ => false
  | .cons c cs, t => decide (c.tag = t) || cs.anyTag t

/-- `list(channel).index(items[0])`: position of the first child tagged
`t` (equals the list length when there is none). -/
def ElemList.findIdxTag : ElemList → String → Nat
  | .nil, _ => 0
  | .cons c cs, t => if c.tag = t then 0 else cs.findIdxTag t + 1

/-- `root.find(t)`: the first direct child tagged `t`. -/
def ElemList.findTag? : ElemList → String → Option Elem
  | .nil, _ => none
  | .cons c cs, t => if c.tag = t then some c else cs.findTag? t

/-- Python `list.insert(i, x)` (appends when `i ≥ len`). -/
def ElemList.insertAt : ElemList → Nat → Elem → ElemList
  | l, 0, x => .cons x l
  | .nil, _ + 1, x => .cons x .nil
  | .cons c cs, n + 1, x => .cons c (cs.insertAt n x)

/-- Python `list.append(x)`. -/
def ElemList.append1 : ElemList → Elem → ElemList
  | .nil, x => .cons x .nil
  | .cons c cs, x => .cons c (cs.append1 x)

/-- In-place mutation of the first child tagged `t` (object identity in
Python: `channel` *is* that child of `root`, so mutating it replaces it
in `root`'s child list). -/
def ElemList.replaceFirstTag : ElemList → String → Elem → ElemList
  | .nil, _, _ => .nil
  | .cons c cs, t, x =>
    if c.tag = t then .cons x cs else .cons c (cs.replaceFirstTag t x)

/-- The direct children tagged `t`, in order, as a Lean list. -/
def ElemList.filterTagList : ElemList → String → List Elem
  | .nil, _ => []
  | .cons c cs, t =>
    if c.tag = t then c :: cs.filterTagList t else cs.filterTagList t

/-- The direct children *not* tagged `t`, in order, as a Lean list. -/
def ElemList.filterNotTagList : ElemList → String → List Elem
  | .nil, _ => []
  | .cons c cs, t =>
    if c.tag = t then cs.filterNotTagList t else c :: cs.filterNotTagList t

/-- Model of `add_item_to_channel_newest_first` (`automate.py`, lines
109–115): insert `item` before the first existing `<item>`, otherwise
append; channel metadata (tag, attributes, text, tail) is untouched. -/
def add_item_to_channel_newest_first (channel : Elem) (item : Elem) : Elem :=
  if channel.children.anyTag "item" then
    channel.withChildren
      (channel.children.insertAt (channel.children.findIdxTag "item") item)
  else
    channel.withChildren (channel.children.append1 item)

/-- `ET._escape_cdata`, per character: escape `& < >` in character data. -/
def escTextChar (c : Char) : List Char :=
  if c = '&' then "&amp;".data
  else if c = '<' then "&lt;".data
  else if c = '>' then "&gt;".data
  else [c]

/-- `ET._escape_cdata` over a character sequence. -/
def escapeText : List Char → List Char
  | [] => []
  | c :: rest => escTextChar c ++ escapeText rest

/-- `ET._escape_attrib`, per character: additionally escape `"` and the
whitespace controls. -/
def escAttrChar (c : Char) : List Char :=
  if c = '&' then "&amp;".data
  else if c = '<' then "&lt;".data
  else if c = '>' then "&gt;".data
  else if c = '"' then "&quot;".data
  else if c = '\r' then "&#13;".data
  else if c = '\n' then "&#10;".data
  else if c = '\t' then "&#09;".data
  else [c]

/-- `ET._escape_attrib` over a character sequence. -/
def escapeAttr : List Char → List Char
  | [] => []
  | c :: rest => escAttrChar c ++ escapeAttr rest

/-- Attribute serialization: ` key="value"` for each attribute, in
insertion order. -/
def serializeAttrsL : List (String × String) → List Char
  | [] => []
  | (k, v) :: rest =>
    ' ' :: (k.data ++ '=' :: '"' :: (escapeAttr v.data ++ '"' :: serializeAttrsL rest))

/-- Does the element get a `>text children</tag>` body (Python's
`if text or len(elem)` — `None` and `""` are both falsy)? -/
def textTruthy : Option String → Bool
  | none => false
  | some t => !(t.isEmpty)

mutual
/-- Model of `ET.tostring(-, encoding="unicode")` on one element (tag,
attributes in order, text, children, closing tag or ` />`, then the
element's tail), producing the emitted characters. -/
def serializeElemL : Elem → List Char
  | .mk tag attrs text children tailText =>
    '<' :: (tag.data ++ serializeAttrsL attrs
      ++ (if textTruthy text || !children.isNil then
            '>' :: (escapeText (text.getD "").data
              ++ serializeListL children
              ++ '<' :: '/' :: (tag.data ++ ['>']))
          else [' ', '/', '>'])
      ++ escapeText (tailText.getD "").data)

def serializeListL : ElemList → List Char
  | .nil => []
  | .cons c cs => serializeElemL c ++ serializeListL cs
end

/-- `ET.tostring(root, encoding="unicode")`: serialize the root element
(no XML declaration is emitted in unicode mode). -/
def serializeDoc (root : Elem) : String :=
  ⟨serializeElemL root⟩

/-! ### The parser (`ET.fromstring` model) -/

/-- XML name characters (ASCII model). -/
def isNameChar (c : Char) : Bool :=
  c.isAlphanum || c = '_' || c = '-' || c = '.' || c = ':'

/-- Value of one entity or decimal character reference (between `&`
and `;`). -/
def entityVal (ent : List Char) : Option Char :=
  if ent = "amp".data then some '&'
  else if ent = "lt".data then some '<'
  else if ent = "gt".data then some '>'
  else if ent = "quot".data then some '"'
  else if ent = "apos".data then some (Char.ofNat 39)
  else
    match ent with
    | '#' :: ds =>
      if ds ≠ [] ∧ ds.all Char.isDigit ∧ digitsVal ds < 55296 then
        some (Char.ofNat (digitsVal ds))
      else none
    | _ => none

/-- Resolve entities in raw character data.  The fuel only bounds the
recursion (every step consumes at least one character, so
`length + 1` always suffices). -/
def pyUnescapeAux : Nat → List Char → Option (List Char)
  | 0, _ => none
  | _ + 1, [] => some []
  | fuel + 1, c :: rest =>
    if c = '&' then
      let ent := rest.takeWhile (fun d => !(d = ';'))
      match rest.dropWhile (fun d => !(d = ';')) with
      | [] => none
      | _ :: rest2 =>
        match entityVal ent with
        | none => none
        | some ec =>
          match pyUnescapeAux fuel rest2 with
          | none => none
          | some done => some (ec :: done)
    else
      match pyUnescapeAux fuel rest with
      | none => none
      | some done => some (c :: done)

def pyUnescape (l : List Char) : Option (List Char) :=
  pyUnescapeAux (l.length + 1) l

/-- Parse character data up to the next `<` (or the end), resolving
entities; empty data becomes `none` (ET leaves `.text`/`.tail` unset). -/
def parseTextSeg (cs : List Char) : Option (Option String × List Char) :=
  match pyUnescape (cs.takeWhile (fun c => !(c = '<'))) with
  | none => none
  | some u =>
    some (if u = [] then none else some ⟨u⟩, cs.dropWhile (fun c => !(c = '<')))

/-- Parse attributes until the `>` or `/>` that ends the open tag. -/
def parseAttrsAux : Nat → List Char → Option (List (String × String) × List Char)
  | 0, _ => none
  | fuel + 1, cs =>
    match cs.dropWhile isSpaceChar with
    | [] => none
    | c :: cs1 =>
      if c = '>' ∨ c = '/' then some ([], c :: cs1)
      else
        let name := (c :: cs1).takeWhile isNameChar
        if name = [] then none
        else
          match ((c :: cs1).dropWhile isNameChar).dropWhile isSpaceChar with
          | [] => none
          | d :: cs2 =>
            if d = '=' then
              match cs2.dropWhile isSpaceChar with
              | [] => none
              | q :: cs3 =>
                if q = '"' ∨ q = Char.ofNat 39 then
                  match cs3.dropWhile (fun e => !(e = q)) with
                  | [] => none
                  | _ :: cs4 =>
                    match pyUnescape (cs3.takeWhile (fun e => !(e = q))) with
                    | none => none
                    | some v =>
                      match parseAttrsAux fuel cs4 with
                      | none => none
                      | some (restAttrs, cs5) =>
                        some ((⟨name⟩, ⟨v⟩) :: restAttrs, cs5)
                else none
            else none

def parseAttrs (cs : List Char) : Option (List (String × String) × List Char) :=
  parseAttrsAux (cs.length + 1) cs

/-- Parse a sequence of sibling elements with their tail texts, stopping
at a closing tag (`</`) or the end of input.  Each element is either
self-closing (`<tag attrs/>`) or `<tag attrs>text children</tag>` with a
matching closing tag.  The caller supplies fuel; any fuel above the
forest size suffices (each recursive call descends into a strictly
smaller forest). -/
def parseChildren : Nat → List Char → Option (ElemList × List Char)
  | 0, _ => none
  | fuel + 1, cs =>
    match cs with
    | [] => some (.nil, [])
    | c :: cs0 =>
      if c = '<' then
        match cs0 with
        | [] => none
        | c2 :: cs1 =>
          if c2 = '/' then some (.nil, c :: c2 :: cs1)
          else
            let name := (c2 :: cs1).takeWhile isNameChar
            if name = [] then none
            else
              match parseAttrs ((c2 :: cs1).dropWhile isNameChar) with
              | none => none
              | some (attrs, cs3) =>
                match cs3 with
                | [] => none
                | c3 :: cs4 =>
                  if c3 = '/' then
                    match cs4 with
                    | [] => none
                    | c4 :: cs5 =>
                      if c4 = '>' then
                        match parseTextSeg cs5 with
                        | none => none
                        | some (tailT, cs6) =>
                          match parseChildren fuel cs6 with
                          | none => none
                          | some (sibs, cs7) =>
                            some (.cons (.mk ⟨name⟩ attrs none .nil tailT)
                              sibs, cs7)
                      else none
                  else if c3 = '>' then
                    match parseTextSeg cs4 with
                    | none => none
                    | some (text, cs5) =>
                      match parseChildren fuel cs5 with
                      | none => none
                      | some (children, cs6) =>
                        match cs6 with
                        | c6 :: c7 :: cs7 =>
                          if c6 = '<' ∧ c7 = '/' then
                            if cs7.takeWhile isNameChar = name then
                              match (cs7.dropWhile isNameChar).dropWhile
                                  isSpaceChar with
                              | [] => none
                              | c8 :: cs8 =>
                                if c8 = '>' then
                                  match parseTextSeg cs8 with
                                  | none => none
                                  | some (tailT, cs9) =>
                                    match parseChildren fuel cs9 with
                                    | none => none
                                    | some (sibs, cs10) =>
                                      some (.cons (.mk ⟨name⟩ attrs text
                                        children tailT) sibs, cs10)
                                else none
                            else none
                          else none
                        | _ => none
                  else none
      else none

/-- Skip an optional XML declaration (`<?xml ...?>`, which contains no
`>` in practice) and surrounding whitespace. -/
def dropDecl (cs : List Char) : List Char :=
  match cs.dropWhile isSpaceChar with
  | [] => []
  | c :: cs1 =>
    if c = '<' then
      match cs1 with
      | [] => c :: cs1
      | c2 :: _ =>
        if c2 = '?' then
          (((c :: cs1).dropWhile (fun d => !(d = '>'))).drop 1).dropWhile
            isSpaceChar
        else c :: cs1
    else c :: cs1

/-- Model of `ET.fromstring`: the document must consist of exactly one
root element (plus optional declaration and trailing character data,
which ET attaches as the root's tail). -/
def parseDoc (s : String) : Option Elem :=
  match parseChildren ((dropDecl s.data).length + 1) (dropDecl s.data) with
  | some (.cons root .nil, []) => some root
  | _ => none

/-! ## C4: the Feed Merger's insertion -/

def ElemList.toList : ElemList → List Elem
  | .nil => []
  | .cons c cs => c :: cs.toList

/-- Spine induction for `ElemList` (the `induction` tactic does not
handle mutual inductives directly). -/
theorem elemListInd {motive : ElemList → Prop}
    (hnil : motive .nil)
    (hcons : ∀ (c : Elem) (cs : ElemList), motive cs → motive (.cons c cs))
    (l : ElemList) : motive l :=
  @ElemList.rec (fun _ => True) motive
    (fun _ _ _ _ _ _ => trivial) hnil (fun c cs _ ih => hcons c cs ih) l

/-- Mutual induction for `Elem`/`ElemList`. -/
theorem elemMutualInd {m1 : Elem → Prop} {m2 : ElemList → Prop}
    (hmk : ∀ (tag : String) (attrs : List (String × String))
      (text : Option String) (children : ElemList) (tailText : Option String),
      m2 children → m1 (.mk tag attrs text children tailText))
    (hnil : m2 .nil)
    (hcons : ∀ (c : Elem) (cs : ElemList), m1 c → m2 cs → m2 (.cons c cs)) :
    (∀ e, m1 e) ∧ (∀ l, m2 l) :=
  ⟨fun e => @Elem.rec m1 m2 hmk hnil hcons e,
   fun l => @ElemList.rec m1 m2 hmk hnil hcons l⟩

/-- The child-list transformation performed by
`add_item_to_channel_newest_first`. -/
def insertNewestFirstL (l : ElemList) (item : Elem) : ElemList :=
  if l.anyTag "item" then l.insertAt (l.findIdxTag "item") item
  else l.append1 item

theorem add_item_eq_withChildren (channel item : Elem) :
    add_item_to_channel_newest_first channel item
      = channel.withChildren (insertNewestFirstL channel.children item) := by
  unfold add_item_to_channel_newest_first insertNewestFirstL
  by_cases h : channel.children.anyTag "item" = true
  · rw [if_pos h, if_pos h]
  · rw [if_neg h, if_neg h]

theorem insertNewestFirstL_cons_of_not_item (c : Elem) (cs : ElemList)
    (item : Elem) (hc : ¬ c.tag = "item") :
    insertNewestFirstL (.cons c cs) item = .cons c (insertNewestFirstL cs item) := by
  unfold insertNewestFirstL
  have hany : ElemList.anyTag (.cons c cs) "item" = cs.anyTag "item" := by
    simp [ElemList.anyTag, hc]
  rw [hany]
  by_cases h : cs.anyTag "item" = true
  · rw [if_pos h, if_pos h]
    have hidx : ElemList.findIdxTag (.cons c cs) "item" = cs.findIdxTag "item" + 1 := by
      simp [ElemList.findIdxTag, hc]
    rw [hidx]
    rfl
  · rw [if_neg h, if_neg h]
    rfl

theorem insertNewestFirstL_filterTag (l : ElemList) (item : Elem)
    (hitem : item.tag = "item") :
    (insertNewestFirstL l item).filterTagList "item"
      = item :: l.filterTagList "item" := by
  induction l using elemListInd with
  | hnil => simp [insertNewestFirstL, ElemList.anyTag, ElemList.append1,
      ElemList.filterTagList, hitem]
  | hcons c cs ih =>
    by_cases hc : c.tag = "item"
    · have : insertNewestFirstL (.cons c cs) item
          = .cons item (.cons c cs) := by
        unfold insertNewestFirstL
        have hany : ElemList.anyTag (.cons c cs) "item" = true := by
          simp [ElemList.anyTag, hc]
        rw [if_pos hany]
        have hidx : ElemList.findIdxTag (.cons c cs) "item" = 0 := by
          simp [ElemList.findIdxTag, hc]
        rw [hidx]
        rfl
      rw [this]
      simp [ElemList.filterTagList, hitem]
    · rw [insertNewestFirstL_cons_of_not_item c cs item hc]
      simp [ElemList.filterTagList, hc, ih]

theorem insertNewestFirstL_filterNotTag (l : ElemList) (item : Elem)
    (hitem : item.tag = "item") :
    (insertNewestFirstL l item).filterNotTagList "item"
      = l.filterNotTagList "item" := by
  induction l using elemListInd with
  | hnil => simp [insertNewestFirstL, ElemList.anyTag, ElemList.append1,
      ElemList.filterNotTagList, hitem]
  | hcons c cs ih =>
    by_cases hc : c.tag = "item"
    · have : insertNewestFirstL (.cons c cs) item
          = .cons item (.cons c cs) := by
        unfold insertNewestFirstL
        have hany : ElemList.anyTag (.cons c cs) "item" = true := by
          simp [ElemList.anyTag, hc]
        rw [if_pos hany]
        have hidx : ElemList.findIdxTag (.cons c cs) "item" = 0 := by
          simp [ElemList.findIdxTag, hc]
        rw [hidx]
        rfl
      rw [this]
      simp [ElemList.filterNotTagList, hitem]
    · rw [insertNewestFirstL_cons_of_not_item c cs item hc]
      simp [ElemList.filterNotTagList, hc, ih]

theorem insertNewestFirstL_position (l : ElemList) (item : Elem) :
    ∃ pre post : List Elem,
      l.toList = pre ++ post ∧
      (∀ e ∈ pre, e.tag ≠ "item") ∧
      (∀ e : Elem, post.head? = some e → e.tag = "item") ∧
      (post = [] → l.filterTagList "item" = []) ∧
      (insertNewestFirstL l item).toList = pre ++ item :: post := by
  induction l using elemListInd with
  | hnil =>
    refine ⟨[], [], rfl, by simp, by simp, fun _ => rfl, ?_⟩
    simp [insertNewestFirstL, ElemList.anyTag, ElemList.append1, ElemList.toList]
  | hcons c cs ih =>
    by_cases hc : c.tag = "item"
    · refine ⟨[], c :: cs.toList, rfl, by simp, ?_, by simp, ?_⟩
      · intro e he
        have hec : c = e := by simpa using he
        rw [← hec]
        exact hc
      · have : insertNewestFirstL (.cons c cs) item
            = .cons item (.cons c cs) := by
          unfold insertNewestFirstL
          have hany : ElemList.anyTag (.cons c cs) "item" = true := by
            simp [ElemList.anyTag, hc]
          rw [if_pos hany]
          have hidx : ElemList.findIdxTag (.cons c cs) "item" = 0 := by
            simp [ElemList.findIdxTag, hc]
          rw [hidx]
          rfl
        rw [this]
        rfl
    · rcases ih with ⟨pre, post, h1, h2, h3, h4, h5⟩
      refine ⟨c :: pre, post, ?_, ?_, h3, ?_, ?_⟩
      · show c :: cs.toList = (c :: pre) ++ post
        rw [h1]
        rfl
      · intro e he
        rcases List.mem_cons.mp he with rfl | he
        · exact hc
        · exact h2 e he
      · intro hpost
        show ElemList.filterTagList (.cons c cs) "item" = []
        simp [ElemList.filterTagList, hc, h4 hpost]
      · rw [insertNewestFirstL_cons_of_not_item c cs item hc]
        show c :: (insertNewestFirstL cs item).toList = (c :: pre) ++ item :: post
        rw [h5]
        rfl

theorem withChildren_fields (e : Elem) (c : ElemList) :
    (e.withChildren c).tag = e.tag ∧ (e.withChildren c).attrs = e.attrs ∧
    (e.withChildren c).text = e.text ∧ (e.withChildren c).tailText = e.tailText ∧
    (e.withChildren c).children = c := by
  cases e
  exact ⟨rfl, rfl, rfl, rfl, rfl⟩

/-- C4: for every feed channel with N existing `<item>` children and
every new item element, the Feed Merger inserts the new item immediately
before the first existing item (when N ≥ 1) and appends it as the sole
item (when N = 0): the children split as a prefix without items followed
by the remaining (item-led when nonempty) suffix, with the new item
placed in between; consequently the channel holds the new item first
followed by the original N items unchanged in content and relative
order (N+1 items in total), all non-item (metadata) children are
unchanged in content and order, and the channel's own tag, attributes,
text and tail are unmodified. -/
theorem add_item_to_channel_newest_first_correct (channel item : Elem)
    (hitem : item.tag = "item") :
    (∃ pre post : List Elem,
      channel.children.toList = pre ++ post ∧
      (∀ e ∈ pre, e.tag ≠ "item") ∧
      (∀ e : Elem, post.head? = some e → e.tag = "item") ∧
      (post = [] → channel.children.filterTagList "item" = []) ∧
      (add_item_to_channel_newest_first channel item).children.toList
        = pre ++ item :: post) ∧
    (add_item_to_channel_newest_first channel item).children.filterTagList "item"
      = item :: channel.children.filterTagList "item" ∧
    ((add_item_to_channel_newest_first channel item).children.filterTagList
        "item").length
      = (channel.children.filterTagList "item").length + 1 ∧
    (add_item_to_channel_newest_first channel item).children.filterNotTagList
        "item"
      = channel.children.filterNotTagList "item" ∧
    (add_item_to_channel_newest_first channel item).tag = channel.tag ∧
    (add_item_to_channel_newest_first channel item).attrs = channel.attrs ∧
    (add_item_to_channel_newest_first channel item).text = channel.text ∧
    (add_item_to_channel_newest_first channel item).tailText = channel.tailText := by
  rw [add_item_eq_withChildren]
  rcases withChildren_fields channel (insertNewestFirstL channel.children item)
    with ⟨htag, hattrs, htext, htail, hch⟩
  rw [htag, hattrs, htext, htail, hch]
  refine ⟨insertNewestFirstL_position channel.children item, ?_, ?_, ?_,
    rfl, rfl, rfl, rfl⟩
  · exact insertNewestFirstL_filterTag channel.children item hitem
  · rw [insertNewestFirstL_filterTag channel.children item hitem]
    rfl
  · exact insertNewestFirstL_filterNotTag channel.children item hitem

/-- Witness for C4 at a concrete channel (one metadata child, one
existing item): the new item is inserted first and the metadata child is
untouched. -/
theorem add_item_to_channel_newest_first_correct_witness :
    (add_item_to_channel_newest_first
        (.mk "channel" [] none
          (.cons (.mk "title" [] (some "T") .nil none)
            (.cons (.mk "item" [] none .nil none) .nil)) none)
        (.mk "item" [] (some "new") .nil none)).children.filterTagList "item"
      = (.mk "item" [] (some "new") .nil none)
          :: (ElemList.cons (.mk "title" [] (some "T") .nil none)
              (.cons (.mk "item" [] none .nil none) .nil)).filterTagList "item" :=
  (add_item_to_channel_newest_first_correct
    (.mk "channel" [] none
      (.cons (.mk "title" [] (some "T") .nil none)
        (.cons (.mk "item" [] none .nil none) .nil)) none)
    (.mk "item" [] (some "new") .nil none) rfl).2.1

/-- Witness for C9: reading back the letters of column 730 recovers 730,
by the general theorem. -/
theorem col_to_a1_correct_witness : a1ColumnIndex (col_to_a1 730) = 730 :=
  (col_to_a1_correct.1 730).1

/-- Witness for C5 at a concrete header row: the resolver picks
`"Title"` (the first candidate present), so `"Title"` occurs among the
trimmed headers. -/
theorem pick_existing_header_correct_witness :
    "Title" ∈ ["x", "Title "].map pyStrip :=
  ((pick_existing_header_correct ["x", "Title "] ["Nope", "Title"]).1
    "Title" rfl).2.1

/-- Witness for C10 at a concrete duplicated header: `"A"` occurs
(trimmed) at columns 0 and 1, and the dict binds it to column 1. -/
theorem build_col_index_last_occurrence_witness :
    dictLookup (build_col_index ["A", " A"]) "A" = some 1 :=
  (build_col_index_last_occurrence ["A", " A"] "A" 1).mpr
    ⟨⟨" A", rfl, rfl⟩, by
      intro j h' hj hj'
      match j with
      | 0 => omega
      | 1 => omega
      | j + 2 => simp at hj'⟩

/-- Witness for C2 at a concrete table: row 1 is selected and therefore
qualifies. -/
theorem find_target_row_correct_witness :
    find_target_row [["Publish Date", "Processed"], ["2024-03-01", ""]]
        ["Publish Date", "Processed"] 0 1 ⟨2024, 3, 1⟩ = some 1 ∧ (1 : Nat) ≤ 1 := by
  refine ⟨rfl, ?_⟩
  exact (((find_target_row_correct [["Publish Date", "Processed"],
    ["2024-03-01", ""]] ["Publish Date", "Processed"] 0 1 ⟨2024, 3, 1⟩).1 1).mp
    rfl).1

/-! ## The pipeline: `main` (`automate.py`, lines 121–288)

External services are modelled by an `Ext` record of call outcomes, in
the exact order `main` performs the calls; every externally visible
write (artifact upload, feed write, spreadsheet cell write) is recorded.
Python falsy-string config checks (`if not X`) make a missing *or empty*
value a `ConfigError`. -/

inductive RunErr where
  | configError
  | schemaError
  | incompleteRowError
  | notFoundError
  | transferError
  | renderError
  | feedCorruptError
deriving DecidableEq, Repr

inductive Outcome where
  | noData
  | noRow
  | success
deriving DecidableEq, Repr

structure Config where
  episodesFolderId : Option String
  spreadsheetId : Option String
  bucketName : Option String
  episodesPrefix : String
  rssBlobName : String

structure ExtCalls where
  driveFindOk : Bool
  downloadAudioOk : Bool
  downloadImageOk : Bool
  ffmpegOk : Bool
  uploadAudioOk : Bool
  uploadVideoOk : Bool
  rssDownloadOk : Bool
  rssUploadOk : Bool
  rssText : String
  audioSize : Nat
  nowStr : String

structure CellWrite where
  colLetter : String
  row1 : Nat
  value : String
deriving DecidableEq, Repr

structure RunResult where
  result : Except RunErr Outcome
  episodeUploads : List (String × String)
  feedWrites : List (String × String)
  sheetWrites : List CellWrite
  sheetAfter : List (List String)
  rssAfter : String
  selectedRow : Option Nat
  newItem : Option Elem
  parsedRoot : Option Elem
  mergedRoot : Option Elem

/-- Writing one cell of the sheet at 0-based row `r`, column `c`
(the `values().update` on a single-cell A1 range, line 277–282; the API
extends a short row as needed, modelled by padding). -/
def setCell (values : List (List String)) (r c : Nat) (v : String) :
    List (List String) :=
  values.set r ((padRow (values.getD r []) (c + 1)).set c v)

def cellAt (values : List (List String)) (r c : Nat) : String :=
  (values.getD r []).getD c ""

/-- `filename.rsplit(".", 1)[0]` (line 226): drop the last dot-suffix;
the whole name when it has no dot. -/
def stemOf (s : String) : String :=
  if s.data.contains '.' then
    ⟨((s.data.reverse.dropWhile (fun c => !(c = '.'))).drop 1).reverse⟩
  else s

/-- `blob.public_url` for a bucket-relative path. -/
def publicUrl (bucketName blobPath : String) : String :=
  "https://storage.googleapis.com/" ++ bucketName ++ "/" ++ blobPath

/-- The `<item>` element built at lines 252–264: title, description,
pubDate, enclosure (url/length/type, in insertion order), guid
(`isPermaLink="false"`). -/
def build_item (title description nowStr audioUrl : String) (audioSize : Nat)
    (guidText : String) : Elem :=
  .mk "item" [] none
    (.cons (.mk "title" [] (some title) .nil none)
    (.cons (.mk "description" [] (some description) .nil none)
    (.cons (.mk "pubDate" [] (some nowStr) .nil none)
    (.cons (.mk "enclosure"
        [("url", audioUrl), ("length", toString audioSize),
         ("type", "audio/x-m4a")] none .nil none)
    (.cons (.mk "guid" [("isPermaLink", "false")] (some guidText) .nil none)
      .nil))))) none

/-- Column-name candidate lists (lines 156–170). -/
def publishCands : List String := ["Publish Date", "PublishDate", "publish_date"]

def titleCands : List String := ["Title", "title"]

def descCands : List String := ["Description", "description"]

def fileCands : List String := ["File Name", "FileName", "Filename", "file_name"]

def processedCands : List String := ["Processed", "processed", "Status", "status"]

def imageCands : List String :=
  ["Image16x9FileId", "Image16x9FileID", "Image16x9FileIdField",
   "Image16x9FileIdFiled", "Image16x9FileIdFieldId", "Image16x9FileIdFieldID"]

/-- A fatal exit: nothing was committed to the sheet or the feed; only
the artifact uploads that already happened are recorded. -/
def errResult (e : RunErr) (ups : List (String × String)) (ext : ExtCalls)
    (values : List (List String)) : RunResult :=
  ⟨.error e, ups, [], [], values, ext.rssText, none, none, none, none⟩

/-- "Sheet returned no data." (lines 148–150): successful no-op. -/
def okNoData (ext : ExtCalls) (values : List (List String)) : RunResult :=
  ⟨.ok .noData, [], [], [], values, ext.rssText, none, none, none, none⟩

/-- "No episode scheduled …" (lines 196–198): successful no-op. -/
def okNoRow (ext : ExtCalls) (values : List (List String)) : RunResult :=
  ⟨.ok .noRow, [], [], [], values, ext.rssText, none, none, none, none⟩

/-- The trimmed content of the selected row's cell in column `idx`
(lines 200–203). -/
def rowField (values : List (List String)) (headers : List String)
    (idx r : Nat) : String :=
  pyStrip ((padRow (values.getD r []) headers.length).getD idx "")

/-- `{episodesPrefix}/{date}/{name}` (lines 225, 227). -/
def episodeBlobName (p : String) (today : Date) (name : String) : String :=
  p ++ "/" ++ dateIso today ++ "/" ++ name

/-- The deterministic feed-item identity (line 264). -/
def guidTextOf (today : Date) (filename : String) : String :=
  "dddevotion-" ++ dateIso today ++ "-" ++ filename

/-- The two Publisher uploads of a successful run (lines 229–241):
the audio artifact and the rendered video artifact. -/
def episodeUploadsOf (cfg : Config) (values : List (List String))
    (headers : List String) (fileIdx r : Nat) (today : Date) :
    List (String × String) :=
  [(episodeBlobName cfg.episodesPrefix today (rowField values headers fileIdx r),
      "audio"),
   (episodeBlobName cfg.episodesPrefix today
      (stemOf (rowField values headers fileIdx r) ++ ".mp4"), "video")]

/-- The new `<item>` of a successful run (lines 252–264). -/
def newItemOf (cfg : Config) (ext : ExtCalls) (values : List (List String))
    (headers : List String) (titleIdx descIdx fileIdx r : Nat)
    (today : Date) : Elem :=
  build_item (rowField values headers titleIdx r)
    (rowField values headers descIdx r) ext.nowStr
    (publicUrl (cfg.bucketName.getD "")
      (episodeBlobName cfg.episodesPrefix today
        (rowField values headers fileIdx r)))
    ext.audioSize
    (guidTextOf today (rowField values headers fileIdx r))

/-- The feed document after the merge (lines 266–268): the first
`<channel>` child of the root is replaced by its merged version. -/
def mergedRootOf (root channel item : Elem) : Elem :=
  root.withChildren (root.children.replaceFirstTag "channel"
    (add_item_to_channel_newest_first channel item))

/-- The run result of a fully successful pipeline (lines 284–287 reached):
both artifacts uploaded, feed rewritten, exactly one cell committed. -/
def successResult (cfg : Config) (ext : ExtCalls) (values : List (List String))
    (headers : List String) (titleIdx descIdx fileIdx procIdx r : Nat)
    (today : Date) (root channel : Elem) : RunResult :=
  { result := .ok .success
    episodeUploads := episodeUploadsOf cfg values headers fileIdx r today
    feedWrites := [(cfg.rssBlobName,
      serializeDoc (mergedRootOf root channel
        (newItemOf cfg ext values headers titleIdx descIdx fileIdx r today)))]
    sheetWrites := [⟨col_to_a1 procIdx, r + 1, "yes"⟩]
    sheetAfter := setCell values r procIdx "yes"
    rssAfter := serializeDoc (mergedRootOf root channel
      (newItemOf cfg ext values headers titleIdx descIdx fileIdx r today))
    selectedRow := some r
    newItem := some (newItemOf cfg ext values headers titleIdx descIdx fileIdx r today)
    parsedRoot := some root
    mergedRoot := some (mergedRootOf root channel
      (newItemOf cfg ext values headers titleIdx descIdx fileIdx r today)) }

/-- Model of `main` (lines 121–288), threading the external calls in
source order.  Schema resolution combines `pick_existing_header` with
the later `col_index[COL_X]` accesses (`resolve_col`); an unparseable
feed document and a missing `<channel>` are both the fatal
feed-corruption exits of lines 247–250. -/
def run_main (cfg : Config) (ext : ExtCalls) (values : List (List String))
    (today : Date) : RunResult :=
  if cfg.episodesFolderId.getD "" = "" then errResult .configError [] ext values
  else if cfg.spreadsheetId.getD "" = "" then errResult .configError [] ext values
  else if cfg.bucketName.getD "" = "" then errResult .configError [] ext values
  else
    match values with
    | [] => okNoData ext values
    | headers :: _ =>
      match resolve_col (build_col_index headers) publishCands with
      | none => errResult .schemaError [] ext values
      | some pubIdx =>
      match resolve_col (build_col_index headers) titleCands with
      | none => errResult .schemaError [] ext values
      | some titleIdx =>
      match resolve_col (build_col_index headers) descCands with
      | none => errResult .schemaError [] ext values
      | some descIdx =>
      match resolve_col (build_col_index headers) fileCands with
      | none => errResult .schemaError [] ext values
      | some fileIdx =>
      match resolve_col (build_col_index headers) processedCands with
      | none => errResult .schemaError [] ext values
      | some procIdx =>
      match resolve_col (build_col_index headers) imageCands with
      | none => errResult .schemaError [] ext values
      | some imgIdx =>
      match find_target_row values headers pubIdx procIdx today with
      | none => okNoRow ext values
      | some r =>
        if rowField values headers titleIdx r = ""
            ∨ rowField values headers fileIdx r = "" then
          errResult .incompleteRowError [] ext values
        else if rowField values headers imgIdx r = "" then
          errResult .incompleteRowError [] ext values
        else if !ext.driveFindOk then errResult .notFoundError [] ext values
        else if !ext.downloadAudioOk then errResult .transferError [] ext values
        else if !ext.downloadImageOk then errResult .transferError [] ext values
        else if !ext.ffmpegOk then errResult .renderError [] ext values
        else if !ext.uploadAudioOk then errResult .transferError [] ext values
        else if !ext.uploadVideoOk then
          errResult .transferError
            [(episodeBlobName cfg.episodesPrefix today
                (rowField values headers fileIdx r), "audio")] ext values
        else if !ext.rssDownloadOk then
          errResult .transferError
            (episodeUploadsOf cfg values headers fileIdx r today) ext values
        else
          match parseDoc ext.rssText with
          | none => errResult .feedCorruptError
              (episodeUploadsOf cfg values headers fileIdx r today) ext values
          | some root =>
            match root.children.findTag? "channel" with
            | none => errResult .feedCorruptError
                (episodeUploadsOf cfg values headers fileIdx r today) ext values
            | some channel =>
              if !ext.rssUploadOk then
                errResult .transferError
                  (episodeUploadsOf cfg values headers fileIdx r today) ext values
              else
                successResult cfg ext values headers titleIdx descIdx fileIdx
                  procIdx r today root channel
set_option maxHeartbeats 2000000 in
theorem run_main_shape (cfg : Config) (ext : ExtCalls)
    (values : List (List String)) (today : Date) :
    (∃ e ups, run_main cfg ext values today = errResult e ups ext values) ∨
    run_main cfg ext values today = okNoData ext values ∨
    run_main cfg ext values today = okNoRow ext values ∨
    (∃ (headers : List String) (rest : List (List String))
      (pubIdx titleIdx descIdx fileIdx procIdx imgIdx r : Nat)
      (root channel : Elem),
      ¬ cfg.episodesFolderId.getD "" = "" ∧
      ¬ cfg.spreadsheetId.getD "" = "" ∧
      ¬ cfg.bucketName.getD "" = "" ∧
      values = headers :: rest ∧
      resolve_col (build_col_index headers) publishCands = some pubIdx ∧
      resolve_col (build_col_index headers) titleCands = some titleIdx ∧
      resolve_col (build_col_index headers) descCands = some descIdx ∧
      resolve_col (build_col_index headers) fileCands = some fileIdx ∧
      resolve_col (build_col_index headers) processedCands = some procIdx ∧
      resolve_col (build_col_index headers) imageCands = some imgIdx ∧
      find_target_row values headers pubIdx procIdx today = some r ∧
      parseDoc ext.rssText = some root ∧
      root.children.findTag? "channel" = some channel ∧
      run_main cfg ext values today = successResult cfg ext values headers
        titleIdx descIdx fileIdx procIdx r today root channel) := by
  have haux : ∀ R : RunResult, run_main cfg ext values today = R →
      ((∃ e ups, R = errResult e ups ext values) ∨ R = okNoData ext values ∨
        R = okNoRow ext values ∨
        (∃ (headers : List String) (rest : List (List String))
          (pubIdx titleIdx descIdx fileIdx procIdx imgIdx r : Nat)
          (root channel : Elem),
          ¬ cfg.episodesFolderId.getD "" = "" ∧
          ¬ cfg.spreadsheetId.getD "" = "" ∧
          ¬ cfg.bucketName.getD "" = "" ∧
          values = headers :: rest ∧
          resolve_col (build_col_index headers) publishCands = some pubIdx ∧
          resolve_col (build_col_index headers) titleCands = some titleIdx ∧
          resolve_col (build_col_index headers) descCands = some descIdx ∧
          resolve_col (build_col_index headers) fileCands = some fileIdx ∧
          resolve_col (build_col_index headers) processedCands = some procIdx ∧
          resolve_col (build_col_index headers) imageCands = some imgIdx ∧
          find_target_row values headers pubIdx procIdx today = some r ∧
          parseDoc ext.rssText = some root ∧
          root.children.findTag? "channel" = some channel ∧
          R = successResult cfg ext values headers
            titleIdx descIdx fileIdx procIdx r today root channel)) := by
    intro R hR
    rw [run_main.eq_def] at hR
    by_cases h1 : cfg.episodesFolderId.getD "" = ""
    · rw [if_pos h1] at hR
      exact .inl ⟨_, _, hR.symm⟩
    rw [if_neg h1] at hR
    by_cases h2 : cfg.spreadsheetId.getD "" = ""
    · rw [if_pos h2] at hR
      exact .inl ⟨_, _, hR.symm⟩
    rw [if_neg h2] at hR
    by_cases h3 : cfg.bucketName.getD "" = ""
    · rw [if_pos h3] at hR
      exact .inl ⟨_, _, hR.symm⟩
    rw [if_neg h3] at hR
    repeat' split at hR
    all_goals
      first
        | exact .inl ⟨_, _, hR.symm⟩
        | exact .inr (.inl hR.symm)
        | exact .inr (.inr (.inl hR.symm))
        | (refine .inr (.inr (.inr ?_));
           repeat' apply Exists.intro;
           repeat' apply And.intro;
           all_goals first | rfl | assumption | exact hR.symm)
  rcases haux _ rfl with h | h | h | h
  · exact .inl h
  · exact .inr (.inl h)
  · exact .inr (.inr (.inl h))
  · exact .inr (.inr (.inr h))

/-- C3: every run that fails with a fatal error (config, schema,
incomplete-row, not-found, transfer, render, or feed-corruption) aborts
before the State Committer executes: the failed run performs no sheet
write and no feed write, the schedule table is unchanged, and a re-run
therefore reselects the same row (row selection is a function of the
unchanged table). -/
theorem run_main_error_retriable (cfg : Config) (ext : ExtCalls)
    (values : List (List String)) (today : Date) (e : RunErr)
    (herr : (run_main cfg ext values today).result = .error e) :
    (run_main cfg ext values today).sheetWrites = [] ∧
    (run_main cfg ext values today).sheetAfter = values ∧
    (run_main cfg ext values today).feedWrites = [] ∧
    (∀ (headers : List String) (pubIdx procIdx : Nat),
      find_target_row (run_main cfg ext values today).sheetAfter headers
          pubIdx procIdx today
        = find_target_row values headers pubIdx procIdx today) := by
  rcases run_main_shape cfg ext values today with ⟨e', ups, h⟩ | h | h | h
  · rw [h]
    exact ⟨rfl, rfl, rfl, fun _ _ _ => rfl⟩
  · rw [h] at herr
    exact Except.noConfusion herr
  · rw [h] at herr
    exact Except.noConfusion herr
  · rcases h with ⟨_, _, _, _, _, _, _, _, _, _, _, _, _, _, _, _, _, _, _, _, _, _, _, _, hrun⟩
    rw [hrun] at herr
    exact Except.noConfusion herr

/-- Witness for C3: a run with a missing episodes-folder id fails with
`ConfigError` and commits nothing. -/
theorem run_main_error_retriable_witness :
    (run_main ⟨none, some "s", some "b", "episodes", "rss.xml"⟩
        ⟨true, true, true, true, true, true, true, true, "", 0, ""⟩
        [["Publish Date"]] ⟨2024, 1, 1⟩).sheetWrites = [] ∧
    (run_main ⟨none, some "s", some "b", "episodes", "rss.xml"⟩
        ⟨true, true, true, true, true, true, true, true, "", 0, ""⟩
        [["Publish Date"]] ⟨2024, 1, 1⟩).sheetAfter = [["Publish Date"]] ∧
    (run_main ⟨none, some "s", some "b", "episodes", "rss.xml"⟩
        ⟨true, true, true, true, true, true, true, true, "", 0, ""⟩
        [["Publish Date"]] ⟨2024, 1, 1⟩).feedWrites = [] ∧
    (∀ (headers : List String) (pubIdx procIdx : Nat),
      find_target_row (run_main ⟨none, some "s", some "b", "episodes", "rss.xml"⟩
          ⟨true, true, true, true, true, true, true, true, "", 0, ""⟩
          [["Publish Date"]] ⟨2024, 1, 1⟩).sheetAfter headers
          pubIdx procIdx ⟨2024, 1, 1⟩
        = find_target_row [["Publish Date"]] headers pubIdx procIdx ⟨2024, 1, 1⟩) :=
  run_main_error_retriable _ _ _ _ .configError rfl

/-! ## C7: the single-cell commit -/

theorem getD_padRow (row : List String) (n i : Nat) :
    (padRow row n).getD i "" = row.getD i "" := by
  unfold padRow
  simp only [List.getD_eq_getElem?_getD]
  by_cases h : i < row.length
  · rw [List.getElem?_append, if_pos h]
  · have h1 : row[i]? = none := by
      rw [List.getElem?_eq_none]
      omega
    rw [h1, List.getElem?_append_right (by omega), List.getElem?_replicate]
    by_cases h2 : i - row.length < n - row.length <;> simp [h2]

theorem cellAt_setCell_same (values : List (List String)) (r c : Nat)
    (v : String) (hr : r < values.length) :
    cellAt (setCell values r c v) r c = v := by
  unfold cellAt setCell
  simp only [List.getD_eq_getElem?_getD]
  rw [List.getElem?_set_self hr, Option.getD_some, List.getElem?_set_self]
  · rfl
  · unfold padRow
    rw [List.length_append, List.length_replicate]
    omega

theorem cellAt_setCell_other (values : List (List String)) (r c : Nat)
    (v : String) (r' c' : Nat) (h : ¬ (r' = r ∧ c' = c)) :
    cellAt (setCell values r c v) r' c' = cellAt values r' c' := by
  unfold cellAt setCell
  simp only [List.getD_eq_getElem?_getD]
  by_cases hr : r' = r
  · subst hr
    have hc : ¬ c' = c := fun hc => h ⟨rfl, hc⟩
    by_cases hlen : r' < values.length
    · rw [List.getElem?_set_self hlen, Option.getD_some,
        List.getElem?_set_ne (fun hcc => hc hcc.symm)]
      have := getD_padRow (values.getD r' []) (c + 1) c'
      simp only [List.getD_eq_getElem?_getD] at this
      rw [this]
    · have h1 : values.set r' ((padRow (values[r']?.getD []) (c + 1)).set c v)
          = values := List.set_eq_of_length_le (by omega)
      rw [h1]
  · rw [List.getElem?_set_ne (fun hrr => hr hrr.symm)]

/-- C7: on every successful run, the State Committer writes the literal
string `"yes"` to exactly one spreadsheet cell, addressed by the
processed column's computed column letter (`col_to_a1`) and the selected
row's 1-based position, and no other cell of the schedule table is
written by the pipeline (every other cell reads back unchanged). -/
theorem run_main_success_single_cell_commit (cfg : Config) (ext : ExtCalls)
    (values : List (List String)) (today : Date)
    (hsucc : (run_main cfg ext values today).result = .ok .success) :
    ∃ (headers : List String) (rest : List (List String)) (procIdx r : Nat),
      values = headers :: rest ∧
      resolve_col (build_col_index headers) processedCands = some procIdx ∧
      (run_main cfg ext values today).selectedRow = some r ∧
      1 ≤ r ∧ r < values.length ∧
      (run_main cfg ext values today).sheetWrites
        = [⟨col_to_a1 procIdx, r + 1, "yes"⟩] ∧
      (run_main cfg ext values today).sheetAfter
        = setCell values r procIdx "yes" ∧
      cellAt (run_main cfg ext values today).sheetAfter r procIdx = "yes" ∧
      ∀ (r' c' : Nat), ¬ (r' = r ∧ c' = procIdx) →
        cellAt (run_main cfg ext values today).sheetAfter r' c'
          = cellAt values r' c' := by
  rcases run_main_shape cfg ext values today with ⟨e, ups, h⟩ | h | h | h
  · rw [h] at hsucc
    exact Except.noConfusion hsucc
  · rw [h] at hsucc
    exact Outcome.noConfusion (Except.ok.inj hsucc)
  · rw [h] at hsucc
    exact Outcome.noConfusion (Except.ok.inj hsucc)
  · rcases h with ⟨headers, rest, pubIdx, titleIdx, descIdx, fileIdx, procIdx,
      imgIdx, r, root, channel, hc1, hc2, hc3, hv, hpub, htitle, hdesc, hfile,
      hproc, himg, hfind, hparse, hchan, hrun⟩
    rcases ((find_target_row_correct values headers pubIdx procIdx today).1
      r).mp hfind with ⟨h1r, row, hrow, _, _⟩
    have hlt : r < values.length := by
      rcases List.getElem?_eq_some.mp hrow with ⟨hlt, _⟩
      exact hlt
    refine ⟨headers, rest, procIdx, r, hv, hproc, ?_, h1r, hlt, ?_, ?_, ?_, ?_⟩
    · rw [hrun]
      rfl
    · rw [hrun]
      rfl
    · rw [hrun]
      rfl
    · rw [hrun]
      exact cellAt_setCell_same values r procIdx "yes" hlt
    · intro r' c' hne
      rw [hrun]
      exact cellAt_setCell_other values r procIdx "yes" r' c' hne

/-- Shared concrete test fixture: a fully available external world and a
one-episode schedule for 2024-03-01. -/
def cfgW : Config := ⟨some "folder", some "sheet", some "bucket", "episodes", "rss.xml"⟩

def extW : ExtCalls :=
  ⟨true, true, true, true, true, true, true, true,
   "<rss><channel /></rss>", 5, "Fri, 01 Mar 2024 00:00:00 GMT"⟩

def valsW : List (List String) :=
  [["Publish Date", "Title", "Description", "File Name", "Processed",
    "Image16x9FileId"],
   ["2024-03-01", "Genesis 1", "Day one", "gen1.m4a", "", "img1"]]

def dayW : Date := ⟨2024, 3, 1⟩

set_option maxRecDepth 8000 in
/-- Witness for C7: the fixture run succeeds and commits exactly one
cell. -/
theorem run_main_success_single_cell_commit_witness :
    ∃ (headers : List String) (rest : List (List String)) (procIdx r : Nat),
      valsW = headers :: rest ∧
      resolve_col (build_col_index headers) processedCands = some procIdx ∧
      (run_main cfgW extW valsW dayW).selectedRow = some r ∧
      1 ≤ r ∧ r < valsW.length ∧
      (run_main cfgW extW valsW dayW).sheetWrites
        = [⟨col_to_a1 procIdx, r + 1, "yes"⟩] ∧
      (run_main cfgW extW valsW dayW).sheetAfter
        = setCell valsW r procIdx "yes" ∧
      cellAt (run_main cfgW extW valsW dayW).sheetAfter r procIdx = "yes" ∧
      ∀ (r' c' : Nat), ¬ (r' = r ∧ c' = procIdx) →
        cellAt (run_main cfgW extW valsW dayW).sheetAfter r' c'
          = cellAt valsW r' c' :=
  run_main_success_single_cell_commit cfgW extW valsW dayW rfl

/-- C6: on every successful run for target date `d` and (trimmed)
schedule file name `f`, the Publisher uploads exactly two objects under
the date-partitioned prefix — the audio artifact at
`{episodesPrefix}/{d}/{f}` and the video artifact at
`{episodesPrefix}/{d}/{stem}.mp4` with `stem` the file name minus its
last dot-suffix — and the new feed item's guid is the non-permalink
value `dddevotion-{d}-{f}`; the guid is the same for every retry of the
same schedule state (any successful re-run from the same table and date
produces the identical guid, whatever the external world does). -/
theorem run_main_success_artifacts_and_guid (cfg : Config) (ext : ExtCalls)
    (values : List (List String)) (today : Date)
    (hsucc : (run_main cfg ext values today).result = .ok .success) :
    ∃ (headers : List String) (rest : List (List String)) (fileIdx r : Nat),
      values = headers :: rest ∧
      resolve_col (build_col_index headers) fileCands = some fileIdx ∧
      (run_main cfg ext values today).selectedRow = some r ∧
      (run_main cfg ext values today).episodeUploads =
        [(cfg.episodesPrefix ++ "/" ++ dateIso today ++ "/"
            ++ rowField values headers fileIdx r, "audio"),
         (cfg.episodesPrefix ++ "/" ++ dateIso today ++ "/"
            ++ (stemOf (rowField values headers fileIdx r) ++ ".mp4"), "video")] ∧
      (∃ item : Elem, (run_main cfg ext values today).newItem = some item ∧
        item.children.findTag? "guid" = some (.mk "guid"
          [("isPermaLink", "false")]
          (some ("dddevotion-" ++ dateIso today ++ "-"
            ++ rowField values headers fileIdx r)) .nil none)) ∧
      (∀ ext2 : ExtCalls,
        (run_main cfg ext2 values today).result = .ok .success →
        ∃ item2 : Elem, (run_main cfg ext2 values today).newItem = some item2 ∧
          item2.children.findTag? "guid" = some (.mk "guid"
            [("isPermaLink", "false")]
            (some ("dddevotion-" ++ dateIso today ++ "-"
              ++ rowField values headers fileIdx r)) .nil none)) := by
  rcases run_main_shape cfg ext values today with ⟨e, ups, h⟩ | h | h | h
  · rw [h] at hsucc
    exact Except.noConfusion hsucc
  · rw [h] at hsucc
    exact Outcome.noConfusion (Except.ok.inj hsucc)
  · rw [h] at hsucc
    exact Outcome.noConfusion (Except.ok.inj hsucc)
  · rcases h with ⟨headers, rest, pubIdx, titleIdx, descIdx, fileIdx, procIdx,
      imgIdx, r, root, channel, hc1, hc2, hc3, hv, hpub, htitle, hdesc, hfile,
      hproc, himg, hfind, hparse, hchan, hrun⟩
    refine ⟨headers, rest, fileIdx, r, hv, hfile, ?_, ?_, ?_, ?_⟩
    · rw [hrun]
      rfl
    · rw [hrun]
      rfl
    · rw [hrun]
      exact ⟨_, rfl, rfl⟩
    · intro ext2 hsucc2
      rcases run_main_shape cfg ext2 values today with ⟨e2, ups2, h2⟩ | h2 | h2 | h2
      · rw [h2] at hsucc2
        exact Except.noConfusion hsucc2
      · rw [h2] at hsucc2
        exact Outcome.noConfusion (Except.ok.inj hsucc2)
      · rw [h2] at hsucc2
        exact Outcome.noConfusion (Except.ok.inj hsucc2)
      · rcases h2 with ⟨headers2, rest2, pubIdx2, titleIdx2, descIdx2, fileIdx2,
          procIdx2, imgIdx2, r2, root2, channel2, hc12, hc22, hc32, hv2, hpub2,
          htitle2, hdesc2, hfile2, hproc2, himg2, hfind2, hparse2, hchan2, hrun2⟩
        obtain ⟨hh, hr⟩ := List.cons.inj (hv.symm.trans hv2)
        subst hh
        have hfe : fileIdx2 = fileIdx :=
          Option.some.inj (hfile2.symm.trans hfile)
        subst hfe
        have hpe : pubIdx2 = pubIdx :=
          Option.some.inj (hpub2.symm.trans hpub)
        subst hpe
        have hpce : procIdx2 = procIdx :=
          Option.some.inj (hproc2.symm.trans hproc)
        subst hpce
        have hre : r2 = r :=
          Option.some.inj (hfind2.symm.trans hfind)
        subst hre
        rw [hrun2]
        exact ⟨_, rfl, rfl⟩

set_option maxRecDepth 8000 in
/-- Witness for C6: the fixture run uploads
`episodes/2024-03-01/gen1.m4a` and `episodes/2024-03-01/gen1.mp4` and
the guid is `dddevotion-2024-03-01-gen1.m4a`. -/
theorem run_main_success_artifacts_and_guid_witness :
    ∃ (headers : List String) (rest : List (List String)) (fileIdx r : Nat),
      valsW = headers :: rest ∧
      resolve_col (build_col_index headers) fileCands = some fileIdx ∧
      (run_main cfgW extW valsW dayW).selectedRow = some r ∧
      (run_main cfgW extW valsW dayW).episodeUploads =
        [(cfgW.episodesPrefix ++ "/" ++ dateIso dayW ++ "/"
            ++ rowField valsW headers fileIdx r, "audio"),
         (cfgW.episodesPrefix ++ "/" ++ dateIso dayW ++ "/"
            ++ (stemOf (rowField valsW headers fileIdx r) ++ ".mp4"), "video")] ∧
      (∃ item : Elem, (run_main cfgW extW valsW dayW).newItem = some item ∧
        item.children.findTag? "guid" = some (.mk "guid"
          [("isPermaLink", "false")]
          (some ("dddevotion-" ++ dateIso dayW ++ "-"
            ++ rowField valsW headers fileIdx r)) .nil none)) ∧
      (∀ ext2 : ExtCalls,
        (run_main cfgW ext2 valsW dayW).result = .ok .success →
        ∃ item2 : Elem, (run_main cfgW ext2 valsW dayW).newItem = some item2 ∧
          item2.children.findTag? "guid" = some (.mk "guid"
            [("isPermaLink", "false")]
            (some ("dddevotion-" ++ dateIso dayW ++ "-"
              ++ rowField valsW headers fileIdx r)) .nil none)) :=
  run_main_success_artifacts_and_guid cfgW extW valsW dayW rfl

/-- Evaluation lemma: when the configuration is present, the schema
resolves, and no data row qualifies, the run is the successful no-op
"No episode scheduled". -/
theorem run_main_noRow_eval (cfg : Config) (ext : ExtCalls)
    (values : List (List String)) (today : Date)
    (headers : List String) (rest : List (List String))
    (hv : values = headers :: rest)
    (hc1 : ¬ cfg.episodesFolderId.getD "" = "")
    (hc2 : ¬ cfg.spreadsheetId.getD "" = "")
    (hc3 : ¬ cfg.bucketName.getD "" = "")
    (pubIdx titleIdx descIdx fileIdx procIdx imgIdx : Nat)
    (hpub : resolve_col (build_col_index headers) publishCands = some pubIdx)
    (htitle : resolve_col (build_col_index headers) titleCands = some titleIdx)
    (hdesc : resolve_col (build_col_index headers) descCands = some descIdx)
    (hfile : resolve_col (build_col_index headers) fileCands = some fileIdx)
    (hproc : resolve_col (build_col_index headers) processedCands = some procIdx)
    (himg : resolve_col (build_col_index headers) imageCands = some imgIdx)
    (hfind : find_target_row values headers pubIdx procIdx today = none) :
    run_main cfg ext values today = okNoRow ext values := by
  subst hv
  rw [run_main.eq_def]
  rw [if_neg hc1, if_neg hc2, if_neg hc3]
  simp only [hpub, htitle, hdesc, hfile, hproc, himg, hfind]

/-- C1 (amended): when at most one data row qualifies for the target
date, a successful run followed by a second run with no intervening
external change yields exactly one new feed item and exactly one
processed-flag write in total: the first run inserts the item (the merged
channel holds one more item than the parsed one) and writes the flag
once, and the second run — from the committed table, whatever the
external world returns — selects no row and terminates successfully as
the "No episode scheduled" no-op (`okNoRow` performs no upload, no feed
write and no sheet write, and leaves the table unchanged).  The
uniqueness hypothesis is necessary: with two rows scheduled for the same
date the second run selects and publishes the second row
(`run_main_idempotent_counterexample`). -/
theorem run_main_idempotent (cfg : Config) (ext : ExtCalls)
    (values : List (List String)) (today : Date)
    (hsucc : (run_main cfg ext values today).result = .ok .success)
    (huniq : ∀ (headers : List String) (rest : List (List String))
      (pubIdx procIdx : Nat),
      values = headers :: rest →
      resolve_col (build_col_index headers) publishCands = some pubIdx →
      resolve_col (build_col_index headers) processedCands = some procIdx →
      ∀ (r1 r2 : Nat) (row1 row2 : List String),
        1 ≤ r1 → values[r1]? = some row1 →
        row_qualifies headers pubIdx procIdx today row1 →
        1 ≤ r2 → values[r2]? = some row2 →
        row_qualifies headers pubIdx procIdx today row2 →
        r1 = r2) :
    (run_main cfg ext values today).sheetWrites.length = 1 ∧
    (run_main cfg ext values today).feedWrites.length = 1 ∧
    (∃ (root channel item : Elem),
      (run_main cfg ext values today).parsedRoot = some root ∧
      (run_main cfg ext values today).newItem = some item ∧
      root.children.findTag? "channel" = some channel ∧
      (run_main cfg ext values today).mergedRoot
        = some (mergedRootOf root channel item) ∧
      ((add_item_to_channel_newest_first channel item).children.filterTagList
          "item").length
        = (channel.children.filterTagList "item").length + 1) ∧
    ∀ ext2 : ExtCalls,
      run_main cfg ext2 (run_main cfg ext values today).sheetAfter today
        = okNoRow ext2 (run_main cfg ext values today).sheetAfter := by
  rcases run_main_shape cfg ext values today with ⟨e, ups, h⟩ | h | h | h
  · rw [h] at hsucc
    exact Except.noConfusion hsucc
  · rw [h] at hsucc
    exact Outcome.noConfusion (Except.ok.inj hsucc)
  · rw [h] at hsucc
    exact Outcome.noConfusion (Except.ok.inj hsucc)
  rcases h with ⟨headers, rest, pubIdx, titleIdx, descIdx, fileIdx, procIdx,
    imgIdx, r, root, channel, hc1, hc2, hc3, hv, hpub, htitle, hdesc, hfile,
    hproc, himg, hfind, hparse, hchan, hrun⟩
  subst hv
  rcases ((find_target_row_correct (headers :: rest) headers pubIdx procIdx
    today).1 r).mp hfind with ⟨h1r, rowq, hrowq, hqualq, _⟩
  have hlt : r < (headers :: rest).length := by
    rcases List.getElem?_eq_some.mp hrowq with ⟨hlt, _⟩
    exact hlt
  refine ⟨by rw [hrun]; rfl, by rw [hrun]; rfl, ?_, ?_⟩
  · refine ⟨root, channel,
      newItemOf cfg ext (headers :: rest) headers titleIdx descIdx fileIdx r
        today,
      by rw [hrun]; rfl, by rw [hrun]; rfl, hchan, by rw [hrun]; rfl, ?_⟩
    have hch := (withChildren_fields channel (insertNewestFirstL
      channel.children (newItemOf cfg ext (headers :: rest) headers titleIdx
        descIdx fileIdx r today))).2.2.2.2
    rw [add_item_eq_withChildren, hch,
      insertNewestFirstL_filterTag channel.children
        (newItemOf cfg ext (headers :: rest) headers titleIdx descIdx fileIdx
          r today) rfl]
    rfl
  · intro ext2
    have hafter : (run_main cfg ext (headers :: rest) today).sheetAfter
        = setCell (headers :: rest) r procIdx "yes" := by
      rw [hrun]
      rfl
    obtain ⟨r0, rfl⟩ : ∃ r0, r = r0 + 1 := ⟨r - 1, by omega⟩
    set marked := (padRow ((headers :: rest).getD (r0 + 1) [])
      (procIdx + 1)).set procIdx "yes" with hmarked
    have hv' : setCell (headers :: rest) (r0 + 1) procIdx "yes"
        = headers :: rest.set r0 marked := by
      unfold setCell
      rfl
    have hfind' : find_target_row (setCell (headers :: rest) (r0 + 1)
        procIdx "yes") headers pubIdx procIdx today = none := by
      rw [(find_target_row_correct (setCell (headers :: rest) (r0 + 1)
        procIdx "yes") headers pubIdx procIdx today).2]
      intro r' row' h1' hrow' hqual'
      by_cases hr' : r' = r0 + 1
      · subst hr'
        have hmark : (setCell (headers :: rest) (r0 + 1) procIdx
            "yes")[r0 + 1]? = some marked := by
          unfold setCell
          exact List.getElem?_set_self hlt
        have hrow'' : row' = marked := by
          rw [hrow'] at hmark
          exact Option.some.inj hmark
        subst hrow''
        rcases hqual' with ⟨_, hnp⟩
        apply hnp
        have hcell : (padRow marked headers.length).getD procIdx ""
            = "yes" := by
          rw [getD_padRow, hmarked, List.getD_eq_getElem?_getD,
            List.getElem?_set_self]
          · rfl
          · unfold padRow
            rw [List.length_append, List.length_replicate]
            omega
        rw [hcell]
        decide
      · have hrow2 : (headers :: rest)[r']? = some row' := by
          rw [← hrow']
          unfold setCell
          exact (List.getElem?_set_ne (fun hx => hr' hx.symm)).symm
        exact absurd (huniq headers rest pubIdx procIdx rfl hpub hproc r'
          (r0 + 1) row' rowq h1' hrow2 hqual' h1r hrowq hqualq) hr'
    rw [hafter]
    exact run_main_noRow_eval cfg ext2
      (setCell (headers :: rest) (r0 + 1) procIdx "yes") today headers
      (rest.set r0 marked) hv' hc1 hc2 hc3 pubIdx titleIdx descIdx fileIdx
      procIdx imgIdx hpub htitle hdesc hfile hproc himg hfind'

set_option maxRecDepth 8000 in
/-- Witness for C1 (amended) at the one-row fixture: the uniqueness
hypothesis holds (row 1 is the only data row), the run succeeds, and the
second run is the no-op. -/
theorem run_main_idempotent_witness :
    (run_main cfgW extW valsW dayW).sheetWrites.length = 1 ∧
    (run_main cfgW extW valsW dayW).feedWrites.length = 1 ∧
    (∃ (root channel item : Elem),
      (run_main cfgW extW valsW dayW).parsedRoot = some root ∧
      (run_main cfgW extW valsW dayW).newItem = some item ∧
      root.children.findTag? "channel" = some channel ∧
      (run_main cfgW extW valsW dayW).mergedRoot
        = some (mergedRootOf root channel item) ∧
      ((add_item_to_channel_newest_first channel item).children.filterTagList
          "item").length
        = (channel.children.filterTagList "item").length + 1) ∧
    ∀ ext2 : ExtCalls,
      run_main cfgW ext2 (run_main cfgW extW valsW dayW).sheetAfter dayW
        = okNoRow ext2 (run_main cfgW extW valsW dayW).sheetAfter := by
  refine run_main_idempotent cfgW extW valsW dayW rfl ?_
  intro headers rest pubIdx procIdx hv hpub hproc r1 r2 row1 row2 h11 hrow1
    hq1 h12 hrow2 hq2
  have e1 : r1 = 1 := by
    rcases r1 with _ | _ | n
    · omega
    · rfl
    · simp [valsW] at hrow1
  have e2 : r2 = 1 := by
    rcases r2 with _ | _ | n
    · omega
    · rfl
    · simp [valsW] at hrow2
  rw [e1, e2]

/-- A table with *two* unprocessed rows scheduled for the same date. -/
def valsB : List (List String) :=
  [["Publish Date", "Title", "Description", "File Name", "Processed",
    "Image16x9FileId"],
   ["2024-03-01", "Genesis 1", "Day one", "gen1.m4a", "", "img1"],
   ["2024-03-01", "Genesis 2", "Day two", "gen2.m4a", "", "img2"]]

set_option maxRecDepth 20000 in
/-- Counterexample to C1 as stated: for a schedule table with two
unprocessed rows dated on the target date, the second run (against the
committed table and the feed the first run wrote, with no external
change) is *not* a no-op: it selects the second row (row index 2),
succeeds, and performs a second processed-flag write — so "exactly one
new feed item and exactly one processed-flag write in total" fails
without a uniqueness assumption on the schedule. -/
theorem run_main_idempotent_counterexample :
    (run_main cfgW extW valsB dayW).result = .ok .success ∧
    (run_main cfgW extW valsB dayW).sheetWrites.length = 1 ∧
    (run_main cfgW
        { extW with rssText := (run_main cfgW extW valsB dayW).rssAfter }
        (run_main cfgW extW valsB dayW).sheetAfter dayW).result
      = .ok .success ∧
    (run_main cfgW
        { extW with rssText := (run_main cfgW extW valsB dayW).rssAfter }
        (run_main cfgW extW valsB dayW).sheetAfter dayW).selectedRow
      = some 2 ∧
    (run_main cfgW
        { extW with rssText := (run_main cfgW extW valsB dayW).rssAfter }
        (run_main cfgW extW valsB dayW).sheetAfter dayW).sheetWrites.length
      = 1 :=
  ⟨rfl, rfl, rfl, rfl, rfl⟩

/-! ## C8: lossless re-serialization and parse/serialize stability

We show that `parseDoc` inverts `serializeDoc` on every well-formed
document (in particular on every document the parser itself produces),
hence `serialize ∘ parse` is idempotent: re-serializing twice is
byte-identical to serializing once. -/

/-- Well-formedness of one attribute: nonempty name of name characters
(attribute values are arbitrary; they are escaped). -/
def attrWf (p : String × String) : Bool :=
  decide (p.1 ≠ "") && p.1.data.all isNameChar

mutual
/-- The trees on which serialization is invertible — exactly the shapes
`ET.fromstring` can produce: nonempty name-character tags and attribute
names, no empty-string text or tail (ET stores `None` instead). -/
def wfElem : Elem → Bool
  | .mk tag attrs text children tailText =>
    decide (tag ≠ "") && tag.data.all isNameChar &&
    attrs.all attrWf &&
    (match text with | none => true | some t => decide (t ≠ "")) &&
    (match tailText with | none => true | some t => decide (t ≠ "")) &&
    wfList children
def wfList : ElemList → Bool
  | .nil => true
  | .cons c cs => wfElem c && wfList cs
end

mutual
def sizeE : Elem → Nat
  | .mk _ _ _ children _ => 1 + sizeL children
def sizeL : ElemList → Nat
  | .nil => 0
  | .cons c cs => sizeE c + sizeL cs
end

theorem takeWhile_append_all (p : Char → Bool) (a b : List Char)
    (h : ∀ c ∈ a, p c = true) :
    (a ++ b).takeWhile p = a ++ b.takeWhile p := by
  induction a with
  | nil => simp
  | cons x xs ih =>
    have hx : p x = true := h x (List.mem_cons_self x xs)
    simp only [List.cons_append, List.takeWhile_cons, hx, if_true]
    rw [ih (fun c hc => h c (List.mem_cons_of_mem x hc))]

theorem dropWhile_append_all (p : Char → Bool) (a b : List Char)
    (h : ∀ c ∈ a, p c = true) :
    (a ++ b).dropWhile p = b.dropWhile p := by
  induction a with
  | nil => simp
  | cons x xs ih =>
    have hx : p x = true := h x (List.mem_cons_self x xs)
    simp only [List.cons_append, List.dropWhile_cons, hx, if_true]
    exact ih (fun c hc => h c (List.mem_cons_of_mem x hc))

theorem takeWhile_cons_neg (p : Char → Bool) (c : Char) (l : List Char)
    (h : p c = false) : (c :: l).takeWhile p = [] := by
  simp [List.takeWhile_cons, h]

theorem dropWhile_cons_neg (p : Char → Bool) (c : Char) (l : List Char)
    (h : p c = false) : (c :: l).dropWhile p = c :: l := by
  simp [List.dropWhile_cons, h]

/-- A name character is not whitespace. -/
theorem nameChar_not_space (c : Char) (h : isNameChar c = true) :
    isSpaceChar c = false := by
  by_cases hs : isSpaceChar c = true
  · exfalso
    simp only [isSpaceChar, Bool.or_eq_true, decide_eq_true_eq] at hs
    rcases hs with ((((h1 | h1) | h1) | h1) | h1) | h1 <;>
      (subst h1; simp [isNameChar] at h)
  · exact Bool.not_eq_true _ |>.mp hs

/-- Escaped character data contains no raw `<`. -/
theorem escTextChar_no_lt (c : Char) : ∀ d ∈ escTextChar c, (!(d = '<')) = true := by
  intro d hd
  unfold escTextChar at hd
  by_cases h1 : c = '&'
  · rw [if_pos h1] at hd
    fin_cases hd <;> decide
  · rw [if_neg h1] at hd
    by_cases h2 : c = '<'
    · rw [if_pos h2] at hd
      fin_cases hd <;> decide
    · rw [if_neg h2] at hd
      by_cases h3 : c = '>'
      · rw [if_pos h3] at hd
        fin_cases hd <;> decide
      · rw [if_neg h3] at hd
        have : d = c := by simpa using hd
        subst this
        simpa using h2

theorem escapeText_no_lt (l : List Char) :
    ∀ d ∈ escapeText l, (!(d = '<')) = true := by
  induction l with
  | nil => intro d hd; simp [escapeText] at hd
  | cons c rest ih =>
    intro d hd
    rw [escapeText] at hd
    rcases List.mem_append.mp hd with hd | hd
    · exact escTextChar_no_lt c d hd
    · exact ih d hd

/-- Escaped attribute values contain no raw double quote. -/
theorem escAttrChar_no_quot (c : Char) :
    ∀ d ∈ escAttrChar c, (!(d = '"')) = true := by
  intro d hd
  unfold escAttrChar at hd
  by_cases h1 : c = '&'
  · rw [if_pos h1] at hd; fin_cases hd <;> decide
  · rw [if_neg h1] at hd
    by_cases h2 : c = '<'
    · rw [if_pos h2] at hd; fin_cases hd <;> decide
    · rw [if_neg h2] at hd
      by_cases h3 : c = '>'
      · rw [if_pos h3] at hd; fin_cases hd <;> decide
      · rw [if_neg h3] at hd
        by_cases h4 : c = '"'
        · rw [if_pos h4] at hd; fin_cases hd <;> decide
        · rw [if_neg h4] at hd
          by_cases h5 : c = '\r'
          · rw [if_pos h5] at hd; fin_cases hd <;> decide
          · rw [if_neg h5] at hd
            by_cases h6 : c = '\n'
            · rw [if_pos h6] at hd; fin_cases hd <;> decide
            · rw [if_neg h6] at hd
              by_cases h7 : c = '\t'
              · rw [if_pos h7] at hd; fin_cases hd <;> decide
              · rw [if_neg h7] at hd
                have : d = c := by simpa using hd
                subst this
                simpa using h4

theorem escapeAttr_no_quot (l : List Char) :
    ∀ d ∈ escapeAttr l, (!(d = '"')) = true := by
  induction l with
  | nil => intro d hd; simp [escapeAttr] at hd
  | cons c rest ih =>
    intro d hd
    rw [escapeAttr] at hd
    rcases List.mem_append.mp hd with hd | hd
    · exact escAttrChar_no_quot c d hd
    · exact ih d hd

theorem pyUnescapeAux_step_text (c : Char) (fuel : Nat) (r : List Char) :
    pyUnescapeAux (fuel + 1) (escTextChar c ++ r)
      = (pyUnescapeAux fuel r).map (fun l => c :: l) := by
  by_cases h1 : c = '&'
  · subst h1
    show pyUnescapeAux (fuel + 1) ('&' :: 'a' :: 'm' :: 'p' :: ';' :: r) = _
    rw [pyUnescapeAux]
    simp only [if_pos rfl, List.takeWhile, List.dropWhile]
    norm_num [entityVal]
    cases hr : pyUnescapeAux fuel r <;> simp [hr]
  · by_cases h2 : c = '<'
    · subst h2
      show pyUnescapeAux (fuel + 1) ('&' :: 'l' :: 't' :: ';' :: r) = _
      rw [pyUnescapeAux]
      simp only [if_pos rfl, List.takeWhile, List.dropWhile]
      norm_num [entityVal]
      cases hr : pyUnescapeAux fuel r <;> simp [hr]
    · by_cases h3 : c = '>'
      · subst h3
        show pyUnescapeAux (fuel + 1) ('&' :: 'g' :: 't' :: ';' :: r) = _
        rw [pyUnescapeAux]
        simp only [if_pos rfl, List.takeWhile, List.dropWhile]
        norm_num [entityVal]
        cases hr : pyUnescapeAux fuel r <;> simp [hr]
      · have he : escTextChar c = [c] := by
          unfold escTextChar
          rw [if_neg h1, if_neg h2, if_neg h3]
        rw [he]
        show pyUnescapeAux (fuel + 1) (c :: r) = _
        rw [pyUnescapeAux, if_neg h1]
        cases hr : pyUnescapeAux fuel r <;> simp [hr]

theorem pyUnescapeAux_step_attr (c : Char) (fuel : Nat) (r : List Char) :
    pyUnescapeAux (fuel + 1) (escAttrChar c ++ r)
      = (pyUnescapeAux fuel r).map (fun l => c :: l) := by
  by_cases h1 : c = '&'
  · subst h1
    show pyUnescapeAux (fuel + 1) ('&' :: 'a' :: 'm' :: 'p' :: ';' :: r) = _
    rw [pyUnescapeAux]
    simp only [if_pos rfl, List.takeWhile, List.dropWhile]
    norm_num [entityVal]
    cases hr : pyUnescapeAux fuel r <;> simp [hr]
  · by_cases h2 : c = '<'
    · subst h2
      show pyUnescapeAux (fuel + 1) ('&' :: 'l' :: 't' :: ';' :: r) = _
      rw [pyUnescapeAux]
      simp only [if_pos rfl, List.takeWhile, List.dropWhile]
      norm_num [entityVal]
      cases hr : pyUnescapeAux fuel r <;> simp [hr]
    · by_cases h3 : c = '>'
      · subst h3
        show pyUnescapeAux (fuel + 1) ('&' :: 'g' :: 't' :: ';' :: r) = _
        rw [pyUnescapeAux]
        simp only [if_pos rfl, List.takeWhile, List.dropWhile]
        norm_num [entityVal]
        cases hr : pyUnescapeAux fuel r <;> simp [hr]
      · by_cases h4 : c = '"'
        · subst h4
          show pyUnescapeAux (fuel + 1)
            ('&' :: 'q' :: 'u' :: 'o' :: 't' :: ';' :: r) = _
          rw [pyUnescapeAux]
          simp only [if_pos rfl, List.takeWhile, List.dropWhile]
          norm_num [entityVal]
          cases hr : pyUnescapeAux fuel r <;> simp [hr]
        · by_cases h5 : c = '\r'
          · subst h5
            show pyUnescapeAux (fuel + 1) ('&' :: '#' :: '1' :: '3' :: ';' :: r) = _
            rw [pyUnescapeAux]
            simp only [if_pos rfl, List.takeWhile, List.dropWhile]
            norm_num [entityVal, digitsVal]
            cases hr : pyUnescapeAux fuel r <;> simp [hr]
          · by_cases h6 : c = '\n'
            · subst h6
              show pyUnescapeAux (fuel + 1) ('&' :: '#' :: '1' :: '0' :: ';' :: r) = _
              rw [pyUnescapeAux]
              simp only [if_pos rfl, List.takeWhile, List.dropWhile]
              norm_num [entityVal, digitsVal]
              cases hr : pyUnescapeAux fuel r <;> simp [hr]
            · by_cases h7 : c = '\t'
              · subst h7
                show pyUnescapeAux (fuel + 1) ('&' :: '#' :: '0' :: '9' :: ';' :: r) = _
                rw [pyUnescapeAux]
                simp only [if_pos rfl, List.takeWhile, List.dropWhile]
                norm_num [entityVal, digitsVal]
                cases hr : pyUnescapeAux fuel r <;> simp [hr]
              · have he : escAttrChar c = [c] := by
                  unfold escAttrChar
                  rw [if_neg h1, if_neg h2, if_neg h3, if_neg h4, if_neg h5,
                    if_neg h6, if_neg h7]
                rw [he]
                show pyUnescapeAux (fuel + 1) (c :: r) = _
                rw [pyUnescapeAux, if_neg h1]
                cases hr : pyUnescapeAux fuel r <;> simp [hr]

theorem pyUnescapeAux_fold (E : Char → List Char) (F : List Char → List Char)
    (hF0 : F [] = []) (hFc : ∀ c l, F (c :: l) = E c ++ F l)
    (hstep : ∀ (c : Char) (fuel : Nat) (r : List Char),
      pyUnescapeAux (fuel + 1) (E c ++ r)
        = (pyUnescapeAux fuel r).map (fun l => c :: l)) :
    ∀ (l : List Char) (fuel : Nat) (r : List Char),
      pyUnescapeAux (l.length + fuel) (F l ++ r)
        = (pyUnescapeAux fuel r).map (fun t => l ++ t) := by
  intro l
  induction l with
  | nil =>
    intro fuel r
    rw [hF0]
    cases hr : pyUnescapeAux fuel r <;> simp [hr]
  | cons c cs ih =>
    intro fuel r
    rw [hFc]
    have hlen : (c :: cs).length + fuel = (cs.length + fuel) + 1 := by
      simp [List.length_cons]
      omega
    rw [hlen, List.append_assoc, hstep c (cs.length + fuel) (F cs ++ r),
      ih fuel r]
    cases pyUnescapeAux fuel r <;> simp

theorem escFold_length_le (E : Char → List Char) (F : List Char → List Char)
    (hF0 : F [] = []) (hFc : ∀ c l, F (c :: l) = E c ++ F l)
    (hE : ∀ c, 1 ≤ (E c).length) :
    ∀ l : List Char, l.length ≤ (F l).length := by
  intro l
  induction l with
  | nil => rw [hF0]
  | cons c cs ih =>
    rw [hFc, List.length_append, List.length_cons]
    have := hE c
    omega

theorem escTextChar_len (c : Char) : 1 ≤ (escTextChar c).length := by
  unfold escTextChar
  repeat' split
  all_goals simp

theorem escAttrChar_len (c : Char) : 1 ≤ (escAttrChar c).length := by
  unfold escAttrChar
  repeat' split
  all_goals simp

theorem pyUnescape_escapeText (l : List Char) :
    pyUnescape (escapeText l) = some l := by
  unfold pyUnescape
  have hlen : l.length ≤ (escapeText l).length :=
    escFold_length_le escTextChar escapeText rfl (fun _ _ => rfl)
      escTextChar_len l
  have harith : (escapeText l).length + 1
      = l.length + (((escapeText l).length - l.length) + 1) := by omega
  rw [harith]
  have hfold := pyUnescapeAux_fold escTextChar escapeText rfl
    (fun _ _ => rfl) pyUnescapeAux_step_text l
    (((escapeText l).length - l.length) + 1) []
  rw [List.append_nil] at hfold
  rw [hfold]
  simp [pyUnescapeAux]

theorem pyUnescape_escapeAttr (l : List Char) :
    pyUnescape (escapeAttr l) = some l := by
  unfold pyUnescape
  have hlen : l.length ≤ (escapeAttr l).length :=
    escFold_length_le escAttrChar escapeAttr rfl (fun _ _ => rfl)
      escAttrChar_len l
  have harith : (escapeAttr l).length + 1
      = l.length + (((escapeAttr l).length - l.length) + 1) := by omega
  rw [harith]
  have hfold := pyUnescapeAux_fold escAttrChar escapeAttr rfl
    (fun _ _ => rfl) pyUnescapeAux_step_attr l
    (((escapeAttr l).length - l.length) + 1) []
  rw [List.append_nil] at hfold
  rw [hfold]
  simp [pyUnescapeAux]

theorem parseTextSeg_escape (t : List Char) (rest : List Char)
    (hrest : rest = [] ∨ ∃ r', rest = '<' :: r') :
    parseTextSeg (escapeText t ++ rest)
      = some ((if t = [] then none else some ⟨t⟩), rest) := by
  unfold parseTextSeg
  have hall : ∀ c ∈ escapeText t, (fun c => !(c = '<')) c = true :=
    escapeText_no_lt t
  have htake : (escapeText t ++ rest).takeWhile (fun c => !(c = '<'))
      = escapeText t := by
    rw [takeWhile_append_all _ _ _ hall]
    rcases hrest with rfl | ⟨r', rfl⟩
    · simp
    · rw [takeWhile_cons_neg _ _ _ (by simp)]
      simp
  have hdrop : (escapeText t ++ rest).dropWhile (fun c => !(c = '<'))
      = rest := by
    rw [dropWhile_append_all _ _ _ hall]
    rcases hrest with rfl | ⟨r', rfl⟩
    · simp
    · exact dropWhile_cons_neg _ _ _ (by simp)
  rw [htake, hdrop, pyUnescape_escapeText]

theorem parseAttrsAux_serialize :
    ∀ (fuel : Nat) (attrs : List (String × String)) (rest : List Char),
    attrs.length < fuel → attrs.all attrWf = true →
    ((rest.dropWhile isSpaceChar).head? = some '>'
      ∨ (rest.dropWhile isSpaceChar).head? = some '/') →
    parseAttrsAux fuel (serializeAttrsL attrs ++ rest)
      = some (attrs, rest.dropWhile isSpaceChar) := by
  intro fuel
  induction fuel with
  | zero => intro attrs rest h _ _; omega
  | succ fuel ih =>
    intro attrs rest hlen hwf hrest
    cases attrs with
    | nil =>
      rw [serializeAttrsL, List.nil_append, parseAttrsAux]
      rcases hcase : rest.dropWhile isSpaceChar with _ | ⟨c, cs1⟩
      · rw [hcase] at hrest
        simp at hrest
      · rw [hcase] at hrest
        have hc : c = '>' ∨ c = '/' := by
          rcases hrest with h | h
          · exact Or.inl (Option.some.inj (by simpa using h.symm)).symm
          · exact Or.inr (Option.some.inj (by simpa using h.symm)).symm
        simp only []
        rw [if_pos hc]
    | cons p as =>
      obtain ⟨k, v⟩ := p
      have hwfk : attrWf (k, v) = true ∧ as.all attrWf = true := by
        simpa [List.all_cons] using hwf
      have hkne : k.data ≠ [] := by
        intro hnil
        have hks : k = "" := String.ext (by simpa using hnil)
        have hcontra := hwfk.1
        simp [attrWf, hks] at hcontra
      have hkname : ∀ c ∈ k.data, isNameChar c = true := by
        have := hwfk.1
        simp only [attrWf, Bool.and_eq_true, List.all_eq_true] at this
        exact fun c hc => this.2 c hc
      obtain ⟨kc, ks, hk⟩ : ∃ kc ks, k.data = kc :: ks := by
        cases hkd : k.data with
        | nil => exact absurd hkd hkne
        | cons kc ks => exact ⟨kc, ks, rfl⟩
      have hkcname : isNameChar kc = true := hkname kc (by rw [hk]; simp)
      -- lay the input out as space :: key ++ '=' :: '"' :: value ++ '"' :: tail
      have hshape : serializeAttrsL ((k, v) :: as) ++ rest
          = ' ' :: (k.data ++ '=' :: '"' ::
              (escapeAttr v.data ++ '"' :: (serializeAttrsL as ++ rest))) := by
        rw [serializeAttrsL]
        simp [List.append_assoc]
      rw [hshape, parseAttrsAux]
      have hdrop1 : (' ' :: (k.data ++ '=' :: '"' ::
          (escapeAttr v.data ++ '"' :: (serializeAttrsL as ++ rest)))).dropWhile
            isSpaceChar
          = k.data ++ '=' :: '"' ::
              (escapeAttr v.data ++ '"' :: (serializeAttrsL as ++ rest)) := by
        rw [List.dropWhile_cons]
        rw [if_pos (by decide)]
        rw [hk]
        exact dropWhile_cons_neg _ _ _ (nameChar_not_space kc hkcname)
      rw [hdrop1]
      rw [hk]
      simp only [List.cons_append]
      rw [if_neg (by
        intro hor
        rcases hor with h | h <;> (subst h; simp [isNameChar] at hkcname))]
      have htk : ((kc :: (ks ++ '=' :: '"' ::
          (escapeAttr v.data ++ '"' :: (serializeAttrsL as ++ rest)))).takeWhile
            isNameChar) = kc :: ks := by
        have := takeWhile_append_all isNameChar (kc :: ks)
          ('=' :: '"' :: (escapeAttr v.data ++ '"' ::
            (serializeAttrsL as ++ rest)))
          (by rw [← hk]; exact hkname)
        simp only [List.cons_append] at this
        rw [this, takeWhile_cons_neg _ _ _ (by decide)]
        simp
      rw [htk]
      rw [if_neg (by simp)]
      have hdk : ((kc :: (ks ++ '=' :: '"' ::
          (escapeAttr v.data ++ '"' :: (serializeAttrsL as ++ rest)))).dropWhile
            isNameChar)
          = '=' :: '"' :: (escapeAttr v.data ++ '"' ::
              (serializeAttrsL as ++ rest)) := by
        have := dropWhile_append_all isNameChar (kc :: ks)
          ('=' :: '"' :: (escapeAttr v.data ++ '"' ::
            (serializeAttrsL as ++ rest)))
          (by rw [← hk]; exact hkname)
        simp only [List.cons_append] at this
        rw [this]
        exact dropWhile_cons_neg _ _ _ (by decide)
      rw [hdk]
      rw [dropWhile_cons_neg _ _ _ (by decide)]
      simp only []
      rw [if_pos (by simp)]
      rw [dropWhile_cons_neg _ _ _ (by decide)]
      simp only []
      rw [if_pos (by simp)]
      have hvq : ∀ c ∈ escapeAttr v.data, (fun e => !(e = '"')) c = true :=
        escapeAttr_no_quot v.data
      have htv : (escapeAttr v.data ++ '"' ::
          (serializeAttrsL as ++ rest)).takeWhile (fun e => !(e = '"'))
          = escapeAttr v.data := by
        rw [takeWhile_append_all _ _ _ hvq,
          takeWhile_cons_neg _ _ _ (by decide)]
        simp
      have hdv : (escapeAttr v.data ++ '"' ::
          (serializeAttrsL as ++ rest)).dropWhile (fun e => !(e = '"'))
          = '"' :: (serializeAttrsL as ++ rest) := by
        rw [dropWhile_append_all _ _ _ hvq]
        exact dropWhile_cons_neg _ _ _ (by decide)
      rw [hdv]
      simp only []
      rw [htv, pyUnescape_escapeAttr]
      simp only []
      rw [ih as rest (by simpa using Nat.lt_of_succ_lt_succ (by simpa using hlen)) hwfk.2 hrest]
      simp only []
      rw [← hk]

theorem serializeAttrsL_length_ge (attrs : List (String × String)) :
    attrs.length ≤ (serializeAttrsL attrs).length := by
  induction attrs with
  | nil => simp [serializeAttrsL]
  | cons a as ih =>
    obtain ⟨k, v⟩ := a
    simp [serializeAttrsL]
    omega

theorem parseAttrs_serialize (attrs : List (String × String))
    (rest : List Char) (hwf : attrs.all attrWf = true)
    (hrest : (rest.dropWhile isSpaceChar).head? = some '>'
      ∨ (rest.dropWhile isSpaceChar).head? = some '/') :
    parseAttrs (serializeAttrsL attrs ++ rest)
      = some (attrs, rest.dropWhile isSpaceChar) := by
  unfold parseAttrs
  apply parseAttrsAux_serialize _ _ _ _ hwf hrest
  have := serializeAttrsL_length_ge attrs
  rw [List.length_append]
  omega

theorem serAttrs_takeWhile_nil (attrs : List (String × String))
    (x : Char) (X : List Char) (hx : isNameChar x = false) :
    (serializeAttrsL attrs ++ (x :: X)).takeWhile isNameChar = [] := by
  cases attrs with
  | nil =>
    simp only [serializeAttrsL, List.nil_append]
    exact takeWhile_cons_neg _ _ _ hx
  | cons a as =>
    obtain ⟨k, v⟩ := a
    rw [serializeAttrsL]
    simp only [List.cons_append]
    exact takeWhile_cons_neg _ _ _ (by decide)

theorem serAttrs_dropWhile_self (attrs : List (String × String))
    (x : Char) (X : List Char) (hx : isNameChar x = false) :
    (serializeAttrsL attrs ++ (x :: X)).dropWhile isNameChar
      = serializeAttrsL attrs ++ (x :: X) := by
  cases attrs with
  | nil =>
    simp only [serializeAttrsL, List.nil_append]
    exact dropWhile_cons_neg _ _ _ hx
  | cons a as =>
    obtain ⟨k, v⟩ := a
    rw [serializeAttrsL]
    simp only [List.cons_append]
    exact dropWhile_cons_neg _ _ _ (by decide)

theorem serializeListL_rest_shape (cs : ElemList) (rest : List Char)
    (hrest : rest = [] ∨ ∃ r', rest = '<' :: '/' :: r') :
    serializeListL cs ++ rest = []
      ∨ ∃ r', serializeListL cs ++ rest = '<' :: r' := by
  cases cs with
  | nil =>
    rcases hrest with rfl | ⟨r', rfl⟩
    · exact Or.inl rfl
    · exact Or.inr ⟨'/' :: r', rfl⟩
  | cons c cs' =>
    cases c with
    | mk tag attrs text children tailText =>
      rw [serializeListL, serializeElemL]
      simp only [List.cons_append]
      exact Or.inr ⟨_, rfl⟩

theorem tag_takeWhile (tc : Char) (ts : List Char)
    (attrs : List (String × String)) (x : Char) (X : List Char)
    (hall : ∀ c ∈ tc :: ts, isNameChar c = true)
    (hx : isNameChar x = false) :
    (tc :: (ts ++ (serializeAttrsL attrs ++ (x :: X)))).takeWhile isNameChar
      = tc :: ts := by
  have h := takeWhile_append_all isNameChar (tc :: ts)
    (serializeAttrsL attrs ++ (x :: X)) hall
  simp only [List.cons_append] at h
  rw [h, serAttrs_takeWhile_nil _ _ _ hx]
  simp

theorem tag_dropWhile (tc : Char) (ts : List Char)
    (attrs : List (String × String)) (x : Char) (X : List Char)
    (hall : ∀ c ∈ tc :: ts, isNameChar c = true)
    (hx : isNameChar x = false) :
    (tc :: (ts ++ (serializeAttrsL attrs ++ (x :: X)))).dropWhile isNameChar
      = serializeAttrsL attrs ++ (x :: X) := by
  have h := dropWhile_append_all isNameChar (tc :: ts)
    (serializeAttrsL attrs ++ (x :: X)) hall
  simp only [List.cons_append] at h
  rw [h, serAttrs_dropWhile_self _ _ _ hx]

theorem tag_close_takeWhile (tc : Char) (ts : List Char) (X : List Char)
    (hall : ∀ c ∈ tc :: ts, isNameChar c = true) :
    (tc :: (ts ++ ('>' :: X))).takeWhile isNameChar = tc :: ts := by
  have h := takeWhile_append_all isNameChar (tc :: ts) ('>' :: X) hall
  simp only [List.cons_append] at h
  rw [h, takeWhile_cons_neg _ _ _ (by decide)]
  simp

theorem tag_close_dropWhile (tc : Char) (ts : List Char) (X : List Char)
    (hall : ∀ c ∈ tc :: ts, isNameChar c = true) :
    (tc :: (ts ++ ('>' :: X))).dropWhile isNameChar = '>' :: X := by
  have h := dropWhile_append_all isNameChar (tc :: ts) ('>' :: X) hall
  simp only [List.cons_append] at h
  rw [h]
  exact dropWhile_cons_neg _ _ _ (by decide)

set_option maxHeartbeats 2000000 in
theorem parseChildren_serialize :
    ∀ (fuel : Nat) (l : ElemList) (rest : List Char),
    sizeL l < fuel → wfList l = true →
    (rest = [] ∨ ∃ r', rest = '<' :: '/' :: r') →
    parseChildren fuel (serializeListL l ++ rest) = some (l, rest) := by
  intro fuel
  induction fuel with
  | zero => intro l rest h _ _; omega
  | succ fuel ih =>
    intro l rest hsz hwf hrest
    cases l with
    | nil =>
      rw [serializeListL, List.nil_append]
      rcases hrest with rfl | ⟨r', rfl⟩
      · rw [parseChildren]
      · rw [parseChildren]
        rw [if_pos (by simp)]
        rw [if_pos (by simp)]
    | cons c cs =>
      cases c with
      | mk tag attrs text children tailText =>
        rw [wfList, Bool.and_eq_true] at hwf
        obtain ⟨hwfE, hwfCs⟩ := hwf
        rw [wfElem.eq_def] at hwfE
        simp only [Bool.and_eq_true, decide_eq_true_eq] at hwfE
        obtain ⟨⟨⟨⟨⟨htagne, htagall⟩, hattrs⟩, htextwf⟩, htailwf⟩, hchildwf⟩
          := hwfE
        have hname : ∀ c ∈ tag.data, isNameChar c = true := by
          simpa [List.all_eq_true] using htagall
        obtain ⟨tc, ts, htag⟩ : ∃ tc ts, tag.data = tc :: ts := by
          cases hd : tag.data with
          | nil => exact absurd (String.ext (by rw [hd])) htagne
          | cons a b => exact ⟨a, b, rfl⟩
        have hallcons : ∀ c ∈ tc :: ts, isNameChar c = true := by
          rw [← htag]; exact hname
        have htc : isNameChar tc = true :=
          hallcons tc (List.mem_cons_self tc ts)
        have htcslash : ¬(tc = '/') := by
          intro h
          rw [h] at htc
          exact absurd htc (by decide)
        rw [sizeL, sizeE] at hsz
        have hszch : sizeL children < fuel := by omega
        have hszcs : sizeL cs < fuel := by omega
        have htail : (if ((tailText.getD "").data = []) then none
            else some (⟨(tailText.getD "").data⟩ : String)) = tailText := by
          cases tailText with
          | none => rfl
          | some t =>
            simp only [decide_eq_true_eq] at htailwf
            have hd : t.data ≠ [] :=
              fun h => htailwf (String.ext (by rw [h]))
            simp only [Option.getD_some]
            rw [if_neg hd]
        by_cases hb : (textTruthy text || !children.isNil) = true
        · -- body form: <tag attrs>text children</tag>tail
          have htext : (if ((text.getD "").data = []) then none
              else some (⟨(text.getD "").data⟩ : String)) = text := by
            cases text with
            | none => rfl
            | some t =>
              simp only [decide_eq_true_eq] at htextwf
              have hd : t.data ≠ [] :=
                fun h => htextwf (String.ext (by rw [h]))
              simp only [Option.getD_some]
              rw [if_neg hd]
          have hshape : serializeListL
                (.cons (.mk tag attrs text children tailText) cs) ++ rest
              = '<' :: (tc :: (ts ++ (serializeAttrsL attrs ++ ('>' ::
                  (escapeText ((text.getD "").data)
                    ++ (serializeListL children ++
                    ('<' :: '/' :: (tc :: (ts ++ ('>' ::
                      (escapeText ((tailText.getD "").data) ++
                        (serializeListL cs ++ rest)))))))))))) := by
            rw [serializeListL, serializeElemL, if_pos hb, htag]
            simp [List.append_assoc]
          rw [hshape, parseChildren]
          rw [if_pos (by simp)]
          simp only []
          rw [if_neg htcslash]
          rw [tag_takeWhile tc ts attrs '>' _ hallcons (by decide)]
          rw [if_neg (by simp)]
          rw [tag_dropWhile tc ts attrs '>' _ hallcons (by decide)]
          rw [parseAttrs_serialize attrs _ hattrs
            (Or.inl (by rw [dropWhile_cons_neg _ _ _ (by decide)]; rfl))]
          rw [dropWhile_cons_neg isSpaceChar '>' _ (by decide)]
          simp only []
          rw [if_neg (by decide)]
          rw [if_pos (by simp)]
          rw [parseTextSeg_escape _ _
            (serializeListL_rest_shape children _ (Or.inr ⟨_, rfl⟩))]
          simp only []
          rw [ih children _ hszch hchildwf (Or.inr ⟨_, rfl⟩)]
          simp only []
          rw [if_pos (by simp)]
          rw [if_pos (tag_close_takeWhile tc ts _ hallcons)]
          rw [tag_close_dropWhile tc ts _ hallcons]
          rw [dropWhile_cons_neg isSpaceChar '>' _ (by decide)]
          simp only []
          rw [if_pos (by simp)]
          rw [parseTextSeg_escape _ _ (serializeListL_rest_shape cs rest hrest)]
          simp only []
          rw [ih cs rest hszcs hwfCs hrest]
          simp only []
          rw [htext, htail, ← htag]
        · -- self-closing form: <tag attrs />tail
          have hbf : (textTruthy text || !children.isNil) = false := by
            simpa using hb
          rw [Bool.or_eq_false_iff] at hbf
          obtain ⟨hbt, hbc⟩ := hbf
          have htext0 : text = none := by
            cases text with
            | none => rfl
            | some t =>
              exfalso
              simp only [decide_eq_true_eq] at htextwf
              rw [textTruthy] at hbt
              simp only [Bool.not_eq_false'] at hbt
              exact htextwf (String.ext (by
                rw [String.isEmpty_iff] at hbt
                rw [hbt]))
          have hchil : children = .nil := by
            cases children with
            | nil => rfl
            | cons a b => simp [ElemList.isNil] at hbc
          have hshape : serializeListL
                (.cons (.mk tag attrs text children tailText) cs) ++ rest
              = '<' :: (tc :: (ts ++ (serializeAttrsL attrs ++ (' ' :: ('/' ::
                  ('>' :: (escapeText ((tailText.getD "").data) ++
                    (serializeListL cs ++ rest)))))))) := by
            rw [serializeListL, serializeElemL, if_neg hb, htag]
            simp [List.append_assoc]
          rw [hshape, parseChildren]
          rw [if_pos (by simp)]
          simp only []
          rw [if_neg htcslash]
          rw [tag_takeWhile tc ts attrs ' ' _ hallcons (by decide)]
          rw [if_neg (by simp)]
          rw [tag_dropWhile tc ts attrs ' ' _ hallcons (by decide)]
          have hdsp : ((' ' : Char) :: ('/' :: ('>' ::
              (escapeText ((tailText.getD "").data) ++
                (serializeListL cs ++ rest))))).dropWhile isSpaceChar
              = '/' :: ('>' :: (escapeText ((tailText.getD "").data) ++
                (serializeListL cs ++ rest))) := by
            rw [List.dropWhile_cons, if_pos (by decide)]
            exact dropWhile_cons_neg _ _ _ (by decide)
          rw [parseAttrs_serialize attrs _ hattrs
            (Or.inr (by rw [hdsp]; rfl))]
          rw [hdsp]
          simp only []
          rw [if_pos (by simp)]
          rw [if_pos (by simp)]
          rw [parseTextSeg_escape _ _ (serializeListL_rest_shape cs rest hrest)]
          simp only []
          rw [ih cs rest hszcs hwfCs hrest]
          simp only []
          rw [htail, htext0, hchil, ← htag]

theorem size_le_serialized_length :
    (∀ e : Elem, sizeE e ≤ (serializeElemL e).length)
      ∧ (∀ l : ElemList, sizeL l ≤ (serializeListL l).length) := by
  apply elemMutualInd
  · intro tag attrs text children tailText ihch
    rw [sizeE, serializeElemL]
    by_cases hb : (textTruthy text || !children.isNil) = true
    · rw [if_pos hb]
      simp only [List.length_cons, List.length_append]
      omega
    · have hbf : children.isNil = true := by
        rcases (by simpa using hb :
          textTruthy text = false ∧ children.isNil = true) with ⟨_, h2⟩
        exact h2
      have hchil : children = .nil := by
        cases children with
        | nil => rfl
        | cons a b => simp [ElemList.isNil] at hbf
      rw [if_neg hb, hchil]
      simp only [sizeL, List.length_cons, List.length_append]
      omega
  · rw [sizeL, serializeListL]
    simp
  · intro c cs ihc ihcs
    rw [sizeL, serializeListL]
    rw [List.length_append]
    omega

theorem dropDecl_lt (c2 : Char) (r : List Char) (h : ¬(c2 = '?')) :
    dropDecl ('<' :: c2 :: r) = '<' :: c2 :: r := by
  rw [dropDecl]
  rw [dropWhile_cons_neg _ _ _ (by decide)]
  simp only []
  rw [if_pos (by simp)]
  rw [if_neg h]

theorem parseDoc_serializeDoc (root : Elem) (hwf : wfElem root = true) :
    parseDoc (serializeDoc root) = some root := by
  obtain ⟨tag, attrs, text, children, tailText⟩ := root
  have hwfE := hwf
  rw [wfElem.eq_def] at hwfE
  simp only [Bool.and_eq_true, decide_eq_true_eq] at hwfE
  obtain ⟨⟨⟨⟨⟨htagne, htagall⟩, _⟩, _⟩, _⟩, _⟩ := hwfE
  obtain ⟨tc, ts, htag⟩ : ∃ tc ts, tag.data = tc :: ts := by
    cases hd : tag.data with
    | nil => exact absurd (String.ext (by rw [hd])) htagne
    | cons a b => exact ⟨a, b, rfl⟩
  have htc : isNameChar tc = true := by
    have : ∀ c ∈ tag.data, isNameChar c = true := by
      simpa [List.all_eq_true] using htagall
    exact this tc (by rw [htag]; simp)
  have hshape : serializeElemL (.mk tag attrs text children tailText)
      = '<' :: tc :: (ts ++ (serializeAttrsL attrs
          ++ ((if textTruthy text || !children.isNil then
                '>' :: (escapeText ((text.getD "").data)
                  ++ serializeListL children
                  ++ '<' :: '/' :: (tag.data ++ ['>']))
              else [' ', '/', '>'])
            ++ escapeText ((tailText.getD "").data)))) := by
    rw [serializeElemL, htag]
    simp [List.append_assoc]
  have hlist : serializeListL
        (.cons (.mk tag attrs text children tailText) .nil) ++ []
      = serializeElemL (.mk tag attrs text children tailText) := by
    rw [serializeListL, serializeListL]
    simp
  have hdd : dropDecl (serializeDoc
        (.mk tag attrs text children tailText)).data
      = serializeElemL (.mk tag attrs text children tailText) := by
    show dropDecl (serializeElemL (.mk tag attrs text children tailText))
      = serializeElemL (.mk tag attrs text children tailText)
    rw [hshape]
    apply dropDecl_lt
    intro h
    rw [h] at htc
    exact absurd htc (by decide)
  rw [parseDoc, hdd]
  have hsz : sizeL (.cons (.mk tag attrs text children tailText) .nil)
      < (serializeElemL (.mk tag attrs text children tailText)).length + 1 := by
    rw [sizeL, sizeL]
    have := size_le_serialized_length.1 (.mk tag attrs text children tailText)
    omega
  have hpc := parseChildren_serialize
    ((serializeElemL (.mk tag attrs text children tailText)).length + 1)
    (.cons (.mk tag attrs text children tailText) .nil) [] hsz
    (by rw [wfList, wfList]; simp [hwf]) (Or.inl rfl)
  rw [hlist] at hpc
  rw [hpc]

theorem parseTextSeg_wf (cs : List Char) (opt : Option String)
    (rest : List Char) (h : parseTextSeg cs = some (opt, rest)) :
    ∀ t, opt = some t → t ≠ "" := by
  rw [parseTextSeg] at h
  cases hu : pyUnescape (cs.takeWhile (fun c => !(c = '<'))) with
  | none => rw [hu] at h; cases h
  | some u =>
    rw [hu] at h
    simp only [Option.some.injEq, Prod.mk.injEq] at h
    obtain ⟨h1, h2⟩ := h
    intro t hts he
    rw [← h1] at hts
    by_cases hue : u = []
    · rw [if_pos hue] at hts; cases hts
    · rw [if_neg hue] at hts
      injection hts with hts
      exact hue (congrArg String.data (hts.trans he))

theorem parseAttrsAux_wf :
    ∀ (fuel : Nat) (cs : List Char) (attrs : List (String × String))
      (rest : List Char),
    parseAttrsAux fuel cs = some (attrs, rest) → attrs.all attrWf = true := by
  intro fuel
  induction fuel with
  | zero => intro cs attrs rest h; cases h
  | succ fuel ih =>
    intro cs attrs rest h
    rw [parseAttrsAux] at h
    cases hdw : cs.dropWhile isSpaceChar with
    | nil => rw [hdw] at h; cases h
    | cons c cs1 =>
      rw [hdw] at h
      simp only [] at h
      by_cases hc : c = '>' ∨ c = '/'
      · rw [if_pos hc] at h
        simp only [Option.some.injEq, Prod.mk.injEq] at h
        rw [← h.1]
        rfl
      · rw [if_neg hc] at h
        by_cases hn : (c :: cs1).takeWhile isNameChar = []
        · rw [if_pos hn] at h; cases h
        · rw [if_neg hn] at h
          cases hd2 : ((c :: cs1).dropWhile isNameChar).dropWhile isSpaceChar
            with
          | nil => rw [hd2] at h; cases h
          | cons d cs2 =>
            rw [hd2] at h
            simp only [] at h
            by_cases hd : d = '='
            · rw [if_pos hd] at h
              cases hq : cs2.dropWhile isSpaceChar with
              | nil => rw [hq] at h; cases h
              | cons q cs3 =>
                rw [hq] at h
                simp only [] at h
                by_cases hqq : q = '"' ∨ q = Char.ofNat 39
                · rw [if_pos hqq] at h
                  cases hv : cs3.dropWhile (fun e => !(e = q)) with
                  | nil => rw [hv] at h; cases h
                  | cons x cs4 =>
                    rw [hv] at h
                    simp only [] at h
                    cases hu : pyUnescape (cs3.takeWhile (fun e => !(e = q)))
                      with
                    | none => rw [hu] at h; cases h
                    | some v =>
                      rw [hu] at h
                      simp only [] at h
                      cases hrec : parseAttrsAux fuel cs4 with
                      | none => rw [hrec] at h; cases h
                      | some pr =>
                        obtain ⟨restAttrs, cs5⟩ := pr
                        rw [hrec] at h
                        simp only [Option.some.injEq, Prod.mk.injEq] at h
                        rw [← h.1, List.all_cons, Bool.and_eq_true]
                        refine ⟨?_, ih cs4 restAttrs cs5 hrec⟩
                        rw [attrWf, Bool.and_eq_true]
                        constructor
                        · simp only [decide_eq_true_eq]
                          intro he
                          exact hn (congrArg String.data he)
                        · rw [List.all_eq_true]
                          intro a ha
                          exact List.mem_takeWhile_imp ha
                · rw [if_neg hqq] at h; cases h
            · rw [if_neg hd] at h; cases h

theorem parseAttrs_wf (cs : List Char) (attrs : List (String × String))
    (rest : List Char) (h : parseAttrs cs = some (attrs, rest)) :
    attrs.all attrWf = true :=
  parseAttrsAux_wf (cs.length + 1) cs attrs rest h

set_option maxHeartbeats 1000000 in
theorem parseChildren_wf :
    ∀ (fuel : Nat) (cs : List Char) (l : ElemList) (rest : List Char),
    parseChildren fuel cs = some (l, rest) → wfList l = true := by
  intro fuel
  induction fuel with
  | zero => intro cs l rest h; cases h
  | succ fuel ih =>
    intro cs l rest h
    rw [parseChildren.eq_def] at h
    cases cs with
    | nil =>
      simp only [Option.some.injEq, Prod.mk.injEq] at h
      rw [← h.1]
      rfl
    | cons c cs0 =>
      simp only [] at h
      by_cases hc : c = '<'
      · rw [if_pos hc] at h
        cases cs0 with
        | nil => cases h
        | cons c2 cs1 =>
          simp only [] at h
          by_cases hc2 : c2 = '/'
          · rw [if_pos hc2] at h
            simp only [Option.some.injEq, Prod.mk.injEq] at h
            rw [← h.1]
            rfl
          · rw [if_neg hc2] at h
            by_cases hn : (c2 :: cs1).takeWhile isNameChar = []
            · rw [if_pos hn] at h; cases h
            · rw [if_neg hn] at h
              cases hpa : parseAttrs ((c2 :: cs1).dropWhile isNameChar) with
              | none => rw [hpa] at h; cases h
              | some pr =>
                obtain ⟨attrs, cs3⟩ := pr
                rw [hpa] at h
                simp only [] at h
                cases cs3 with
                | nil => cases h
                | cons c3 cs4 =>
                  simp only [] at h
                  by_cases hc3 : c3 = '/'
                  · rw [if_pos hc3] at h
                    cases cs4 with
                    | nil => cases h
                    | cons c4 cs5 =>
                      simp only [] at h
                      by_cases hc4 : c4 = '>'
                      · rw [if_pos hc4] at h
                        cases hts : parseTextSeg cs5 with
                        | none => rw [hts] at h; cases h
                        | some prT =>
                          obtain ⟨tailT, cs6⟩ := prT
                          rw [hts] at h
                          simp only [] at h
                          cases hpc : parseChildren fuel cs6 with
                          | none => rw [hpc] at h; cases h
                          | some prS =>
                            obtain ⟨sibs, cs7⟩ := prS
                            rw [hpc] at h
                            simp only [Option.some.injEq, Prod.mk.injEq] at h
                            rw [← h.1, wfList, Bool.and_eq_true]
                            refine ⟨?_, ih cs6 sibs cs7 hpc⟩
                            rw [wfElem.eq_def]
                            simp only [Bool.and_eq_true, decide_eq_true_eq]
                            refine ⟨⟨⟨⟨⟨?_, ?_⟩, ?_⟩, ?_⟩, ?_⟩, ?_⟩
                            · intro he
                              exact hn (congrArg String.data he)
                            · rw [List.all_eq_true]
                              intro a ha
                              exact List.mem_takeWhile_imp ha
                            · exact parseAttrs_wf _ _ _ hpa
                            · trivial
                            · have hw := parseTextSeg_wf cs5 tailT cs6 hts
                              cases tailT with
                              | none => trivial
                              | some t => simpa using hw t rfl
                            · trivial
                      · rw [if_neg hc4] at h; cases h
                  · rw [if_neg hc3] at h
                    by_cases hc3b : c3 = '>'
                    · rw [if_pos hc3b] at h
                      cases htx : parseTextSeg cs4 with
                      | none => rw [htx] at h; cases h
                      | some prT =>
                        obtain ⟨text, cs5⟩ := prT
                        rw [htx] at h
                        simp only [] at h
                        cases hpc : parseChildren fuel cs5 with
                        | none => rw [hpc] at h; cases h
                        | some prC =>
                          obtain ⟨children, cs6⟩ := prC
                          rw [hpc] at h
                          simp only [] at h
                          cases cs6 with
                          | nil => cases h
                          | cons c6 cs6a =>
                            cases cs6a with
                            | nil => cases h
                            | cons c7 cs7 =>
                              simp only [] at h
                              by_cases h67 : c6 = '<' ∧ c7 = '/'
                              · rw [if_pos h67] at h
                                by_cases hnm : cs7.takeWhile isNameChar
                                    = (c2 :: cs1).takeWhile isNameChar
                                · rw [if_pos hnm] at h
                                  cases hd8 : (cs7.dropWhile
                                      isNameChar).dropWhile isSpaceChar with
                                  | nil => rw [hd8] at h; cases h
                                  | cons c8 cs8 =>
                                    rw [hd8] at h
                                    simp only [] at h
                                    by_cases hc8 : c8 = '>'
                                    · rw [if_pos hc8] at h
                                      cases hts : parseTextSeg cs8 with
                                      | none => rw [hts] at h; cases h
                                      | some prT2 =>
                                        obtain ⟨tailT, cs9⟩ := prT2
                                        rw [hts] at h
                                        simp only [] at h
                                        cases hps : parseChildren fuel cs9 with
                                        | none => rw [hps] at h; cases h
                                        | some prS =>
                                          obtain ⟨sibs, cs10⟩ := prS
                                          rw [hps] at h
                                          simp only [Option.some.injEq,
                                            Prod.mk.injEq] at h
                                          rw [← h.1, wfList, Bool.and_eq_true]
                                          refine ⟨?_, ih cs9 sibs cs10 hps⟩
                                          rw [wfElem.eq_def]
                                          simp only [Bool.and_eq_true,
                                            decide_eq_true_eq]
                                          refine ⟨⟨⟨⟨⟨?_, ?_⟩, ?_⟩, ?_⟩, ?_⟩,
                                            ih cs5 children _ hpc⟩
                                          · intro he
                                            exact hn (congrArg String.data he)
                                          · rw [List.all_eq_true]
                                            intro a ha
                                            exact List.mem_takeWhile_imp ha
                                          · exact parseAttrs_wf _ _ _ hpa
                                          · have hw := parseTextSeg_wf cs4
                                              text cs5 htx
                                            cases text with
                                            | none => trivial
                                            | some t => simpa using hw t rfl
                                          · have hw := parseTextSeg_wf cs8
                                              tailT cs9 hts
                                            cases tailT with
                                            | none => trivial
                                            | some t => simpa using hw t rfl
                                    · rw [if_neg hc8] at h; cases h
                                · rw [if_neg hnm] at h; cases h
                              · rw [if_neg h67] at h; cases h
                    · rw [if_neg hc3b] at h; cases h
      · rw [if_neg hc] at h; cases h

theorem parseDoc_wf (s : String) (t : Elem) (h : parseDoc s = some t) :
    wfElem t = true := by
  rw [parseDoc] at h
  cases hp : parseChildren ((dropDecl s.data).length + 1) (dropDecl s.data)
    with
  | none => rw [hp] at h; cases h
  | some pr =>
    obtain ⟨l, rest⟩ := pr
    rw [hp] at h
    cases l with
    | nil => cases h
    | cons root l' =>
      cases l' with
      | cons b bs => cases h
      | nil =>
        cases rest with
        | cons r rs => cases h
        | nil =>
          simp only [Option.some.injEq] at h
          have hw := parseChildren_wf _ _ _ _ hp
          rw [wfList, Bool.and_eq_true] at hw
          rw [← h]
          exact hw.1

/-- C8: aside from the one inserted item, the Feed Merger re-serializes the
feed document losslessly: for every document `ET.fromstring` accepts
(yielding `root`), `ET.tostring` emits a document that parses back to
exactly the same tree — channel metadata, all other items, and XML
declaration behavior are preserved — and parsing then re-serializing a
second time with no new item is byte-identical to the first serialization
(no drift from repeated parse/emit). -/
theorem feed_reserialization_lossless (s : String) (root : Elem)
    (h : parseDoc s = some root) :
    parseDoc (serializeDoc root) = some root
      ∧ serializeDoc ((parseDoc (serializeDoc root)).getD root)
          = serializeDoc root := by
  have h1 := parseDoc_serializeDoc root (parseDoc_wf s root h)
  exact ⟨h1, by rw [h1]; rfl⟩

/-- A concrete feed document with declaration, attributes, an escaped
entity, nested items and no incidental whitespace. -/
def rssDocW : String :=
  "<?xml version=\"1.0\" ?>\n<rss version=\"2.0\"><channel><title>Deep &amp; Dive</title><item><guid isPermaLink=\"false\">g1</guid></item></channel></rss>"

/-- The tree `ET.fromstring` produces for `rssDocW`. -/
def rssTreeW : Elem :=
  .mk "rss" [("version", "2.0")] none
    (.cons (.mk "channel" [] none
      (.cons (.mk "title" [] (some "Deep & Dive") .nil none)
      (.cons (.mk "item" [] none
        (.cons (.mk "guid" [("isPermaLink", "false")] (some "g1") .nil none)
          .nil) none)
        .nil)) none)
      .nil) none

set_option maxRecDepth 20000 in
theorem feed_reserialization_lossless_witness :
    parseDoc rssDocW = some rssTreeW
      ∧ (parseDoc (serializeDoc rssTreeW) = some rssTreeW
        ∧ serializeDoc ((parseDoc (serializeDoc rssTreeW)).getD rssTreeW)
            = serializeDoc rssTreeW) :=
  ⟨rfl, feed_reserialization_lossless rssDocW rssTreeW rfl⟩
